import Mathlib

/-!
Shallow embedding of the obsidian-quarto-variables plugin core
(PlaceholderScanner, YamlStructureParser, VariableCache, VariableWriter,
PlaceholderRenderer) together with theorems checking the specification's
claims against it.

Modelling conventions:
* JavaScript runtime values that can flow through the plugin (the parsed
  YAML data, node values, cache entries) are modelled by the inductive
  type `JValue`.  JS `undefined` is modelled by `Option.none` at lookup
  boundaries; `null` is the explicit constructor `JValue.vNull`.
* JS numbers are modelled by `Int`; every number the embedded code paths
  manipulate is an integer (lengths, char codes, 32-bit hash values), and
  JS renders integral numbers exactly like `Int` does.
* JS strings are Lean `String`s, manipulated through their `List Char`
  representation.  (JS strings are UTF-16; all claim-relevant reasoning
  is on Basic-Multilingual-Plane text where the two views agree.)
* JS `Map` objects are association lists with insertion order and unique
  keys: `get` is `List.lookup`, `set` replaces in place or appends.
* Prototype-inherited properties of JS primitives (such as `toString`)
  are not modelled: property access on numbers, booleans returns
  `undefined`, and on strings only character indexing and `length` are
  own-property-like accesses (which JS does expose and which the code
  can reach).
-/

/-- Model of a JavaScript runtime value as produced by YAML parsing and
manipulated by the plugin (`null`, booleans, numbers, strings, arrays,
plain objects). -/
inductive JValue where
  | vNull : JValue
  | vBool : Bool → JValue
  | vNum : Int → JValue
  | vStr : String → JValue
  | vArr : List JValue → JValue
  | vObj : List (String × JValue) → JValue

/-- JS truthiness of a `JValue` (`data || {}` style tests). -/
def JValue.truthy : JValue → Bool
  | .vNull => false
  | .vBool b => b
  | .vNum n => n ≠ 0
  | .vStr s => s ≠ ""
  | .vArr _ => true
  | .vObj _ => true

mutual

/-- JS `String(v)` coercion: numbers and booleans print their literal
text, arrays join their elements with a comma (as `Array.prototype.join`
does, rendering `null` as the empty string), plain objects print as
`[object Object]`. -/
def jsToString : JValue → String
  | .vNull => "null"
  | .vBool b => if b then "true" else "false"
  | .vNum n => toString n
  | .vStr s => s
  | .vArr xs => jsJoinComma xs
  | .vObj _ => "[object Object]"

/-- Comma-join used by `Array.prototype.toString`; `null` elements
render as the empty string. -/
def jsJoinComma : List JValue → String
  | [] => ""
  | [x] =>
    match x with
    | .vNull => ""
    | v => jsToString v
  | x :: y :: xs =>
    (match x with
     | .vNull => ""
     | v => jsToString v) ++ "," ++ jsJoinComma (y :: xs)

end

/-- Canonical array-index reading of a JS property key: all digits with
no superfluous leading zero.  `arr["01"]` is not element access. -/
def digitsToNat (cs : List Char) : Nat :=
  cs.foldl (fun a c => a * 10 + (c.toNat - '0'.toNat)) 0

def canonicalIndex (k : String) : Option Nat :=
  match k.data with
  | [] => none
  | c :: cs =>
    if (c :: cs).all Char.isDigit then
      if c = '0' ∧ cs ≠ [] then none
      else some (digitsToNat (c :: cs))
    else none

/-- JS property read `v[k]` restricted to own-property-like accesses:
object field lookup, array element / `length`, string character /
`length`.  Property access on numbers and booleans yields `undefined`
(`none`); callers in the embedded code never index `null`. -/
def jsIndex : JValue → String → Option JValue
  | .vObj fields, k => fields.lookup k
  | .vArr xs, k =>
    if k = "length" then some (.vNum xs.length)
    else (canonicalIndex k).bind fun i => xs.get? i
  | .vStr s, k =>
    if k = "length" then some (.vNum s.length)
    else (canonicalIndex k).bind fun i => (s.data.get? i).map fun c => .vStr (String.mk [c])
  | _, _ => none

/-! ## PlaceholderScanner

Embedding of `PlaceholderScanner` (src/unnamed/part_001, second file):
the regex `/\x7b\x7b\s*<\s*var\s+([a-zA-Z0-9_.]+)\s*>\s*\x7d\x7d/g`,
`findAll`, `isValidKey`, `simpleHash`, `findAllInRange` and its result
cache.  The regex is deterministic (adjacent sub-patterns have disjoint
character sets), so it is embedded as a direct functional matcher. -/

/-- Characters matched by the JS regex class `\s` (the Unicode space
separators beyond NBSP are omitted; no claim involves them). -/
def jsWs (c : Char) : Bool :=
  c = ' ' || c = '\t' || c = '\n' || c = '\x0b' || c = '\x0c' || c = '\r' ||
  c = '\u00A0' || c = '\uFEFF'

/-- Characters of the regex class `[a-zA-Z0-9_.]` used for variable
keys. -/
def isKeyChar (c : Char) : Bool :=
  ('a' ≤ c && c ≤ 'z') || ('A' ≤ c && c ≤ 'Z') || ('0' ≤ c && c ≤ '9') ||
  c = '_' || c = '.'

/-- A placeholder match as produced by the scanner (`VariableMatch` in
src/types): absolute start/end offsets and the captured dotted key.
The TS fields `from`/`to` are Lean keywords, hence `vFrom`/`vTo`. -/
structure VariableMatch where
  vFrom : Nat
  vTo : Nat
  key : String
deriving DecidableEq, Repr

/-- Consume one expected literal character. -/
def lit (c : Char) : List Char → Option (List Char)
  | x :: r => if x = c then some r else none
  | [] => none

/-- Consume `\s*` (greedy, no backtracking needed: the following
literal is never a whitespace character). -/
def ws0 (l : List Char) : List Char := l.dropWhile jsWs

/-- Consume `\s+`. -/
def ws1 : List Char → Option (List Char)
  | x :: r => if jsWs x then some (r.dropWhile jsWs) else none
  | [] => none

/-- Consume `([a-zA-Z0-9_.]+)` (greedy; the following characters `\s`
and `>` are outside the class, so greedy is exact), returning the
capture and the rest. -/
def keyTok (l : List Char) : Option (List Char × List Char) :=
  let k := l.takeWhile isKeyChar
  if k.isEmpty then none else some (k, l.dropWhile isKeyChar)

/-- Attempt to match the scanner regex at the head of `l`; on success
return the captured key characters and the suffix after the match. -/
def matchVarAt (l : List Char) : Option (List Char × List Char) :=
  (lit '{' l).bind fun r1 =>
  (lit '{' r1).bind fun r2 =>
  (lit '<' (ws0 r2)).bind fun r3 =>
  (lit 'v' (ws0 r3)).bind fun r4 =>
  (lit 'a' r4).bind fun r5 =>
  (lit 'r' r5).bind fun r6 =>
  (ws1 r6).bind fun r7 =>
  (keyTok r7).bind fun kr =>
  (lit '>' (ws0 kr.2)).bind fun r8 =>
  (lit '}' (ws0 r8)).bind fun r9 =>
  (lit '}' r9).bind fun r10 =>
  some (kr.1, r10)

theorem lit_length_lt {c : Char} {l r : List Char} (h : lit c l = some r) :
    r.length < l.length := by
  cases l with
  | nil => simp [lit] at h
  | cons x t =>
    simp only [lit] at h
    split at h
    · cases h; simp
    · cases h

theorem dropWhile_length_le (p : Char → Bool) (l : List Char) :
    (l.dropWhile p).length ≤ l.length := by
  induction l with
  | nil => simp
  | cons x t ih =>
    by_cases hx : p x
    · simp only [List.dropWhile_cons, hx, if_true]
      exact Nat.le_succ_of_le ih
    · simp [List.dropWhile_cons, hx]

theorem ws0_length_le (l : List Char) : (ws0 l).length ≤ l.length :=
  dropWhile_length_le jsWs l

theorem ws1_length_lt {l r : List Char} (h : ws1 l = some r) :
    r.length < l.length := by
  cases l with
  | nil => simp [ws1] at h
  | cons x t =>
    simp only [ws1] at h
    split at h
    · cases h
      exact Nat.lt_succ_of_le (dropWhile_length_le jsWs t)
    · cases h

theorem keyTok_length_le {l : List Char} {k r : List Char}
    (h : keyTok l = some (k, r)) : r.length ≤ l.length := by
  simp only [keyTok] at h
  split at h
  · cases h
  · cases h
    exact dropWhile_length_le isKeyChar l

/-- A successful regex match consumes at least one character (in fact
many); this justifies termination of the scan loop. -/
theorem matchVarAt_rest_length {l : List Char} {k r : List Char}
    (h : matchVarAt l = some (k, r)) : r.length < l.length := by
  simp only [matchVarAt, Option.bind_eq_some] at h
  obtain ⟨r1, h1, r2, h2, r3, h3, r4, h4, r5, h5, r6, h6, r7, h7, kr, h8, r8, h9,
    r9, h10, r10, h11, heq⟩ := h
  cases heq
  have l1 := lit_length_lt h1
  have l2 := lit_length_lt h2
  have l3 := lit_length_lt h3
  have l4 := lit_length_lt h4
  have l5 := lit_length_lt h5
  have l6 := lit_length_lt h6
  have l7 := ws1_length_lt h7
  have l8 := keyTok_length_le h8
  have l9 := lit_length_lt h9
  have l10 := lit_length_lt h10
  have l11 := lit_length_lt h11
  have w2 := ws0_length_le r2
  have w3 := ws0_length_le r3
  have w8 := ws0_length_le kr.2
  have w9 := ws0_length_le r8
  omega

/-- The scan loop of `findAll`: repeatedly look for the first position
where the regex matches (as `RegExp.exec` with the `g` flag does),
emit the match with absolute offsets, and continue after it.  The
`fuel` argument makes the recursion structural; by
`matchVarAt_rest_length` every step consumes at least one character,
so fuel `l.length + 1` computes the full scan
(`findAllAux_fuel_irrelevant` below makes this exact). -/
def findAllAux : Nat → List Char → Nat → List VariableMatch
  | 0, _, _ => []
  | _ + 1, [], _ => []
  | fuel + 1, c :: cs, pos =>
    match matchVarAt (c :: cs) with
    | some (key, rest) =>
      let len := (c :: cs).length - rest.length
      { vFrom := pos, vTo := pos + len, key := key.asString } ::
        findAllAux fuel rest (pos + len)
    | none => findAllAux fuel cs (pos + 1)

/-- Any fuel beyond the list length yields the same scan: the fuel is
an artefact of the embedding, not a semantic bound. -/
theorem findAllAux_fuel_irrelevant :
    ∀ (f1 f2 : Nat) (l : List Char) (pos : Nat), l.length < f1 → l.length < f2 →
      findAllAux f1 l pos = findAllAux f2 l pos := by
  intro f1
  induction f1 with
  | zero => intro f2 l pos h1; cases h1
  | succ f ih =>
    intro f2 l pos h1 h2
    cases f2 with
    | zero => cases h2
    | succ g =>
      cases l with
      | nil => rfl
      | cons c cs =>
        rw [findAllAux, findAllAux]
        have hl : (c :: cs).length = cs.length + 1 := rfl
        cases hm : matchVarAt (c :: cs) with
        | none =>
          have hcs1 : cs.length < f := by omega
          have hcs2 : cs.length < g := by omega
          simp only [hm]
          exact ih g cs (pos + 1) hcs1 hcs2
        | some kr =>
          obtain ⟨key, rest⟩ := kr
          have hr := matchVarAt_rest_length hm
          have hr1 : rest.length < f := by omega
          have hr2 : rest.length < g := by omega
          simp only [hm]
          rw [ih g rest _ hr1 hr2]

/-- `PlaceholderScanner.findAll(text, offset)`: all regex matches in
`text`, with offsets shifted by `offset`. -/
def findAll (text : String) (offset : Nat) : List VariableMatch :=
  findAllAux (text.data.length + 1) text.data offset

/-- `PlaceholderScanner.isValidKey`: non-empty, charset
`[a-zA-Z0-9_.]`, no leading, trailing or doubled dot. -/
def containsDoubleDot : List Char → Bool
  | a :: b :: r => (a = '.' && b = '.') || containsDoubleDot (b :: r)
  | _ => false

def isValidKey (key : String) : Bool :=
  key.length > 0 && key.data.all isKeyChar &&
  !(decide (key.data.head? = some '.')) &&
  !(decide (key.data.getLast? = some '.')) &&
  !containsDoubleDot key.data

/-- Wrap an integer to the signed 32-bit range, as the JS `| 0` and
`& hash` coercions do. -/
def wrap32 (n : Int) : Int := (n + 2 ^ 31) % 2 ^ 32 - 2 ^ 31

/-- One step of `simpleHash`: JS computes
`hash = (((hash << 5) - hash) + charCode) & hash-width`, where `<< 5`
itself truncates to 32 bits. -/
def simpleHashStep (h : Int) (c : Nat) : Int :=
  wrap32 (wrap32 (h * 32) - h + c)

/-- `PlaceholderScanner.simpleHash`: the 31-based rolling hash of the
text's UTF-16 char codes, rendered in decimal.  (For Basic-
Multilingual-Plane characters the char code is the code point.) -/
def simpleHash (text : String) : String :=
  if text.data.isEmpty then "0"
  else toString (text.data.foldl (fun h c => simpleHashStep h c.toNat) 0)

/-- Insertion-ordered map update with JS `Map.set` semantics: replace
in place if the key is present (these maps only ever hold each key
once), else append at the end. -/
def mapSet {α : Type} : List (String × α) → String → α → List (String × α)
  | [], k, v => [(k, v)]
  | (k', v') :: rest, k, v =>
    if k' = k then (k, v) :: rest else (k', v') :: mapSet rest k v

/-- The scanner's per-viewport result cache (`lastScanResults` and
`lastScanHash` maps, keyed by the `from-to` range string). -/
structure ScannerState where
  lastScanResults : List (String × List VariableMatch)
  lastScanHash : List (String × String)
deriving DecidableEq, Repr

def emptyScannerState : ScannerState := ⟨[], []⟩

/-- `PlaceholderScanner.cleanupCache`: once more than 10 ranges are
cached, drop the 5 oldest entries. -/
def cleanupCache (st : ScannerState) : ScannerState :=
  if st.lastScanResults.length > 10 then
    let keysToDelete := (st.lastScanResults.map Prod.fst).take 5
    { lastScanResults :=
        st.lastScanResults.filter fun p => !(keysToDelete.contains p.1),
      lastScanHash :=
        st.lastScanHash.filter fun p => !(keysToDelete.contains p.1) }
  else st

/-- `PlaceholderScanner.findAllInRange`: `text` is the viewport slice
`view.state.doc.sliceString(from, to)`.  A cached result for the same
range whose recorded hash equals the current text's hash is returned
as is; otherwise the range is rescanned and both maps updated. -/
def findAllInRange (text : String) (fromPos toPos : Nat)
    (st : ScannerState) : List VariableMatch × ScannerState :=
  let cacheKey := toString fromPos ++ "-" ++ toString toPos
  let textHash := simpleHash text
  let rescan : List VariableMatch × ScannerState :=
    let ms := findAll text fromPos
    let st' : ScannerState :=
      { lastScanResults := mapSet st.lastScanResults cacheKey ms,
        lastScanHash := mapSet st.lastScanHash cacheKey textHash }
    (ms, cleanupCache st')
  match st.lastScanHash.lookup cacheKey with
  | some cachedHash =>
    if cachedHash = textHash then
      match st.lastScanResults.lookup cacheKey with
      | some cached => (cached, st)
      | none => rescan
    else rescan
  | none => rescan

/-! ## Scanner lemmas -/

/-- The first element of `r` (if any) falsifies `p`. -/
def headFails (p : Char → Bool) : List Char → Prop
  | [] => True
  | x :: _ => p x = false

theorem takeWhile_append_eq (p : Char → Bool) {k r : List Char}
    (hk : ∀ c ∈ k, p c = true) (hr : headFails p r) :
    (k ++ r).takeWhile p = k := by
  induction k with
  | nil =>
    cases r with
    | nil => rfl
    | cons x t => simp [headFails] at hr; simp [List.takeWhile_cons, hr]
  | cons x t ih =>
    have hx : p x = true := hk x (by simp)
    simp only [List.cons_append, List.takeWhile_cons, hx, if_true]
    rw [ih (fun c hc => hk c (by simp [hc]))]

theorem dropWhile_append_eq (p : Char → Bool) {k r : List Char}
    (hk : ∀ c ∈ k, p c = true) (hr : headFails p r) :
    (k ++ r).dropWhile p = r := by
  induction k with
  | nil =>
    cases r with
    | nil => rfl
    | cons x t => simp [headFails] at hr; simp [List.dropWhile_cons, hr]
  | cons x t ih =>
    have hx : p x = true := hk x (by simp)
    simp only [List.cons_append, List.dropWhile_cons, hx, if_true]
    exact ih (fun c hc => hk c (by simp [hc]))

theorem ws_not_keyChar {c : Char} (h : jsWs c = true) : isKeyChar c = false := by
  simp only [jsWs, Bool.or_eq_true, decide_eq_true_eq] at h
  rcases h with (((((((rfl | rfl) | rfl) | rfl) | rfl) | rfl) | rfl) | rfl) <;> decide

theorem keyChar_not_ws {c : Char} (h : isKeyChar c = true) : jsWs c = false := by
  cases hw : jsWs c with
  | false => rfl
  | true => rw [ws_not_keyChar hw] at h; cases h

theorem data_asString (s : String) : s.data.asString = s := rfl

theorem lit_cons (c : Char) (X : List Char) : lit c (c :: X) = some X := by
  simp [lit]

/-- The regex matcher accepts a full placeholder token and captures
exactly the embedded key, consuming the whole token. -/
theorem matchVarAt_token
    {w1 w2 t3 w4 w5 kt : List Char} {c3 kc : Char}
    (h1 : ∀ c ∈ w1, jsWs c = true) (h2 : ∀ c ∈ w2, jsWs c = true)
    (hc3 : jsWs c3 = true) (ht3 : ∀ c ∈ t3, jsWs c = true)
    (h4 : ∀ c ∈ w4, jsWs c = true) (h5 : ∀ c ∈ w5, jsWs c = true)
    (hkc : isKeyChar kc = true) (hkt : ∀ c ∈ kt, isKeyChar c = true) :
    matchVarAt ('{' :: '{' :: (w1 ++ '<' :: (w2 ++ 'v' :: 'a' :: 'r' :: c3 ::
      (t3 ++ kc :: (kt ++ (w4 ++ '>' :: (w5 ++ ['}', '}']))))))) =
      some (kc :: kt, []) := by
  have hkall : ∀ c ∈ kc :: kt, isKeyChar c = true := by
    intro c hc
    rcases List.mem_cons.mp hc with rfl | hc
    · exact hkc
    · exact hkt c hc
  have dW1 : ∀ X : List Char, ws0 (w1 ++ '<' :: X) = '<' :: X :=
    fun X => dropWhile_append_eq jsWs h1 (show jsWs '<' = false by decide)
  have dW2 : ∀ X : List Char, ws0 (w2 ++ 'v' :: X) = 'v' :: X :=
    fun X => dropWhile_append_eq jsWs h2 (show jsWs 'v' = false by decide)
  have dW3 : ∀ X : List Char, ws1 (c3 :: (t3 ++ kc :: X)) = some (kc :: X) := by
    intro X
    simp only [ws1, hc3, if_true]
    exact congrArg some (dropWhile_append_eq jsWs ht3 (keyChar_not_ws hkc))
  have hf4 : ∀ X : List Char, headFails isKeyChar (w4 ++ '>' :: X) := by
    intro X
    cases w4 with
    | nil => exact (show isKeyChar '>' = false by decide)
    | cons a t => exact ws_not_keyChar (h4 a (by simp))
  have dK : ∀ X : List Char, keyTok (kc :: (kt ++ (w4 ++ '>' :: X))) =
      some (kc :: kt, w4 ++ '>' :: X) := by
    intro X
    have ht := takeWhile_append_eq isKeyChar hkall (hf4 X)
    have hd := dropWhile_append_eq isKeyChar hkall (hf4 X)
    simp only [List.cons_append, List.append_assoc] at ht hd
    simp only [keyTok, ht, hd, List.isEmpty_cons]
    rfl
  have dW4 : ∀ X : List Char, ws0 (w4 ++ '>' :: X) = '>' :: X :=
    fun X => dropWhile_append_eq jsWs h4 (show jsWs '>' = false by decide)
  have dW5 : ws0 (w5 ++ ['}', '}']) = ['}', '}'] :=
    dropWhile_append_eq jsWs h5 (show jsWs '}' = false by decide)
  simp only [matchVarAt, lit_cons, Option.some_bind, dW1, dW2, dW3, dK, dW4, dW5,
    List.cons_append, List.append_assoc]

/-- A single placeholder token of the spec §4.1 grammar: two opening
braces, optional whitespace, `<`, optional whitespace, the literal tag
word `var`, required whitespace, a dotted key, optional whitespace,
`>`, optional whitespace, two closing braces. -/
def varToken (w1 w2 w3 w4 w5 key : String) : String :=
  "\x7b\x7b" ++ w1 ++ "<" ++ w2 ++ "var" ++ w3 ++ key ++ w4 ++ ">" ++ w5 ++
    "\x7d\x7d"

/-- C6: for every string consisting of a single placeholder token of
the §4.1 grammar — any whitespace choices where the grammar allows
them, the whitespace between `var` and the key non-empty, and a valid
dotted key — `findAll` returns exactly one match covering the whole
token whose key is the embedded dotted identifier, and `isValidKey`
accepts that key. -/
theorem C6_single_token_findAll (w1 w2 w3 w4 w5 key : String)
    (h1 : w1.data.all jsWs = true) (h2 : w2.data.all jsWs = true)
    (h3 : w3.data.all jsWs = true) (h3ne : w3.data ≠ [])
    (h4 : w4.data.all jsWs = true) (h5 : w5.data.all jsWs = true)
    (hkey : isValidKey key = true) :
    findAll (varToken w1 w2 w3 w4 w5 key) 0 =
      [{ vFrom := 0, vTo := (varToken w1 w2 w3 w4 w5 key).length, key := key }] ∧
    isValidKey key = true := by
  refine ⟨?_, hkey⟩
  obtain ⟨c3, t3, hw3⟩ : ∃ c t, w3.data = c :: t := by
    cases hd : w3.data with
    | nil => exact absurd hd h3ne
    | cons c t => exact ⟨c, t, rfl⟩
  have hkparts := hkey
  simp only [isValidKey, Bool.and_eq_true, decide_eq_true_eq] at hkparts
  obtain ⟨⟨⟨⟨hklen, hkchars⟩, -⟩, -⟩, -⟩ := hkparts
  obtain ⟨kc, kt, hkd⟩ : ∃ c t, key.data = c :: t := by
    cases hd : key.data with
    | nil =>
      rw [show key.length = key.data.length from rfl, hd] at hklen
      exact absurd hklen (by simp)
    | cons c t => exact ⟨c, t, rfl⟩
  rw [hw3] at h3
  rw [hkd] at hkchars
  simp only [List.all_eq_true] at h1 h2 h3 h4 h5 hkchars
  have hm := @matchVarAt_token w1.data w2.data t3 w4.data w5.data kt c3 kc
    h1 h2 (h3 c3 (by simp)) (fun c hc => h3 c (by simp [hc]))
    h4 h5 (hkchars kc (by simp)) (fun c hc => hkchars c (by simp [hc]))
  have hdata : (varToken w1 w2 w3 w4 w5 key).data =
      '{' :: '{' :: (w1.data ++ '<' :: (w2.data ++ 'v' :: 'a' :: 'r' :: c3 ::
        (t3 ++ kc :: (kt ++ (w4.data ++ '>' :: (w5.data ++ ['}', '}'])))))) := by
    simp [varToken, String.data_append, hw3, hkd]
  rw [findAll, hdata, findAllAux, hm]
  simp only [List.length_nil, Nat.sub_zero, findAllAux]
  refine congrArg (· :: []) ?_
  have hfull : (varToken w1 w2 w3 w4 w5 key).length =
      ('{' :: '{' :: (w1.data ++ '<' :: (w2.data ++ 'v' :: 'a' :: 'r' :: c3 ::
        (t3 ++ kc :: (kt ++ (w4.data ++ '>' :: (w5.data ++ ['}', '}']))))))).length := by
    rw [show (varToken w1 w2 w3 w4 w5 key).length =
      (varToken w1 w2 w3 w4 w5 key).data.length from rfl, hdata]
  have hks : (kc :: kt).asString = key := by rw [← hkd, data_asString]
  simp [hfull, hks]

theorem C6_single_token_findAll_witness :
    findAll (varToken " " "" " " "" " " "a.b") 0 =
      [{ vFrom := 0, vTo := (varToken " " "" " " "" " " "a.b").length,
         key := "a.b" }] ∧
    isValidKey "a.b" = true :=
  C6_single_token_findAll " " "" " " "" " " "a.b" (by decide) (by decide)
    (by decide) (by decide) (by decide) (by decide) (by decide)

theorem keyTok_fst {l : List Char} {kr : List Char × List Char}
    (h : keyTok l = some kr) :
    kr.1 ≠ [] ∧ ∀ c ∈ kr.1, isKeyChar c = true := by
  simp only [keyTok] at h
  split at h
  · cases h
  · rename_i hne
    cases h
    constructor
    · intro hnil
      have htw : l.takeWhile isKeyChar = [] := hnil
      rw [htw] at hne
      exact hne rfl
    · intro c hc
      exact List.mem_takeWhile_imp hc

theorem matchVarAt_key_spec {l k r : List Char}
    (h : matchVarAt l = some (k, r)) :
    k ≠ [] ∧ ∀ c ∈ k, isKeyChar c = true := by
  simp only [matchVarAt, Option.bind_eq_some] at h
  obtain ⟨r1, h1, r2, h2, r3, h3, r4, h4, r5, h5, r6, h6, r7, h7, kr, h8, r8, h9,
    r9, h10, r10, h11, heq⟩ := h
  have hk : kr.1 = k := congrArg Prod.fst (Option.some.inj heq)
  rw [← hk]
  exact keyTok_fst h8

theorem findAllAux_keys :
    ∀ (fuel : Nat) (l : List Char) (pos : Nat),
      ∀ m ∈ findAllAux fuel l pos, m.key ≠ "" ∧ m.key.data.all isKeyChar = true := by
  intro fuel
  induction fuel with
  | zero => intro l pos m hm; cases hm
  | succ f ih =>
    intro l pos m hm
    cases l with
    | nil => cases hm
    | cons c cs =>
      rw [findAllAux] at hm
      cases h : matchVarAt (c :: cs) with
      | none =>
        rw [h] at hm
        exact ih cs (pos + 1) m hm
      | some kr =>
        obtain ⟨key, rest⟩ := kr
        rw [h] at hm
        rcases List.mem_cons.mp hm with rfl | hm
        · obtain ⟨hne, hall⟩ := matchVarAt_key_spec h
          constructor
          · intro hcontra
            exact hne (congrArg String.data hcontra)
          · exact List.all_eq_true.mpr hall
        · exact ih rest _ m hm

/-- C4 (amended): every key returned by `findAll` is non-empty and
consists only of the characters `[a-zA-Z0-9_.]`; it need not satisfy
the full `isValidKey` predicate (leading, trailing and doubled dots
are accepted by the scanner regex). -/
theorem C4_findAll_keys_charset (text : String) (offset : Nat) :
    ∀ m ∈ findAll text offset, m.key ≠ "" ∧ m.key.data.all isKeyChar = true :=
  findAllAux_keys (text.data.length + 1) text.data offset

theorem C4_findAll_keys_charset_witness :
    { vFrom := 0, vTo := 15, key := "a.b" } ∈ findAll "{{< var a.b >}}" 0 ∧
    (({ vFrom := 0, vTo := 15, key := "a.b" } : VariableMatch).key ≠ "" ∧
     ({ vFrom := 0, vTo := 15, key := "a.b" } : VariableMatch).key.data.all
       isKeyChar = true) :=
  ⟨by decide,
   C4_findAll_keys_charset "{{< var a.b >}}" 0
     { vFrom := 0, vTo := 15, key := "a.b" } (by decide)⟩

/-- C4 counterexample: the scanner regex also matches keys that
`isValidKey` rejects — the token `{{< var .a >}}` produces a match
with key `.a`, which starts with a dot. -/
theorem C4_counterexample :
    findAll "{{< var .a >}}" 0 =
      [{ vFrom := 0, vTo := 14, key := ".a" }] ∧
    isValidKey ".a" = false := by
  decide

/-- C10 (amended): the range-scoped scan agrees with a direct
`findAll` on the current viewport text whenever the cached hash for
the range (if any) differs from the current text's hash; stale
results arise only from `simpleHash` collisions between different
viewport texts for the same range. -/
theorem C10_findAllInRange_fresh (text : String) (fromPos toPos : Nat)
    (st : ScannerState)
    (h : ∀ hsh, st.lastScanHash.lookup
        (toString fromPos ++ "-" ++ toString toPos) = some hsh →
        hsh ≠ simpleHash text) :
    (findAllInRange text fromPos toPos st).1 = findAll text fromPos := by
  rw [findAllInRange]
  cases hl : st.lastScanHash.lookup (toString fromPos ++ "-" ++ toString toPos) with
  | none => rfl
  | some cachedHash =>
    have hne : cachedHash ≠ simpleHash text := h cachedHash hl
    simp only [hne, if_false, reduceIte]

theorem C10_findAllInRange_fresh_witness :
    (∀ hsh, (emptyScannerState.lastScanHash.lookup
        (toString 0 ++ "-" ++ toString 14) = some hsh) →
        hsh ≠ simpleHash "{{< var Aa >}}") ∧
    (findAllInRange "{{< var Aa >}}" 0 14 emptyScannerState).1 =
      findAll "{{< var Aa >}}" 0 := by
  constructor
  · intro hsh hc
    cases hc
  · exact C10_findAllInRange_fresh "{{< var Aa >}}" 0 14 emptyScannerState
      (fun hsh hc => by cases hc)

set_option maxRecDepth 4000 in
/-- C10 counterexample: `simpleHash` collides on the viewport texts
`{{< var Aa >}}` and `{{< var BB >}}` (the 31-based rolling hash gives
`Aa` and `BB` the same value), so after scanning the first text, a
second call for the same range on the changed text returns the stale
match list (key `Aa`) instead of the fresh scan (key `BB`). -/
theorem C10_counterexample :
    (findAllInRange "{{< var BB >}}" 0 14
        (findAllInRange "{{< var Aa >}}" 0 14 emptyScannerState).2).1 ≠
      findAll "{{< var BB >}}" 0 := by
  decide

/-! ## YamlStructureParser

Embedding of src/src/modules/YamlStructureParser.ts.  The external
js-yaml loader appears twice: once on the whole document (FAILSAFE
schema, producing `parsedData`) and once per scalar value (default
schema).  Both are parameters (`decodeDoc`, `decodeScalar`); theorems
quantify over them, and the concrete evaluations instantiate them with
a small model of js-yaml restricted to the scalar shapes they use.
Line loops carry a fuel argument so the recursion is structural.
Fuel accounting: the nested-structure parser spends one unit in
`parseNestedStructure` and one per `pnsLoop` step, i.e. two units per
nesting level plus one per scanned line, so `extractLoop` hands it
`2 * lines.length + 2`; `pns_fuel_agree` proves any two fuels above
`2 * (lines.length - startLine)` give the same result, so this budget
is stable (the fuel is an artefact of the embedding, not a semantic
bound).  `extractLoop` itself advances its line index by at least one
per unit (`extractLoop_fuel_agree`), so `lines.length + 1` suffices
for it.  The depth-first flattening needs no fuel at all: it is
structural over the nested node type. -/

/-- JS `String.prototype.trim` on the char list. -/
def trimList (l : List Char) : List Char :=
  ((l.dropWhile jsWs).reverse.dropWhile jsWs).reverse

def jsTrim (s : String) : String := (trimList s.data).asString

/-- First index of `c` (JS `indexOf`, `none` for `-1`). -/
def indexOfChar (c : Char) : List Char → Option Nat
  | [] => none
  | x :: r =>
    if x = c then some 0
    else (indexOfChar c r).map (· + 1)

/-- JS `String.prototype.split` with a single-character separator. -/
def jsSplitAux (sep : Char) : List Char → List Char → List String
  | [], acc => [acc.reverse.asString]
  | x :: r, acc =>
    if x = sep then acc.reverse.asString :: jsSplitAux sep r []
    else jsSplitAux sep r (x :: acc)

def jsSplit (sep : Char) (s : String) : List String :=
  jsSplitAux sep s.data []

/-- The value/type tags of `YamlNode.type`. -/
inductive YType where
  | tString | tNumber | tBoolean | tArray | tObject | tNull
deriving DecidableEq, Repr

/-- `YamlNode` from YamlStructureParser.ts.  The parser always
initialises `children` to `[]`, so the TS optional array is modelled
as a plain list.  (`sectionHeader` is never assigned and is omitted.)
Recursive, so an inductive with accessor functions below. -/
inductive YamlNode where
  | mk (key : String) (value : JValue) (type : YType) (level : Nat)
       (lineStart : Nat) (lineEnd : Nat) (comment : Option String)
       (children : List YamlNode) (isStructuralParent : Bool)
       (parentPath : Option String) : YamlNode

def YamlNode.key : YamlNode → String
  | .mk k _ _ _ _ _ _ _ _ _ => k

def YamlNode.value : YamlNode → JValue
  | .mk _ v _ _ _ _ _ _ _ _ => v

def YamlNode.type : YamlNode → YType
  | .mk _ _ t _ _ _ _ _ _ _ => t

def YamlNode.level : YamlNode → Nat
  | .mk _ _ _ l _ _ _ _ _ _ => l

def YamlNode.lineStart : YamlNode → Nat
  | .mk _ _ _ _ s _ _ _ _ _ => s

def YamlNode.lineEnd : YamlNode → Nat
  | .mk _ _ _ _ _ e _ _ _ _ => e

def YamlNode.comment : YamlNode → Option String
  | .mk _ _ _ _ _ _ c _ _ _ => c

def YamlNode.children : YamlNode → List YamlNode
  | .mk _ _ _ _ _ _ _ cs _ _ => cs

def YamlNode.isStructuralParent : YamlNode → Bool
  | .mk _ _ _ _ _ _ _ _ p _ => p

def YamlNode.parentPath : YamlNode → Option String
  | .mk _ _ _ _ _ _ _ _ _ pp => pp

/-- `node.parentPath = path` assignment. -/
def YamlNode.setParentPath : YamlNode → String → YamlNode
  | .mk k v t l s e c cs p _, pp => .mk k v t l s e c cs p (some pp)

/-- `node.children = nested.nodes` assignment. -/
def YamlNode.setChildren : YamlNode → List YamlNode → YamlNode
  | .mk k v t l s e c _ p pp, cs => .mk k v t l s e c cs p pp

/-- `node.value = newValue; node.type = ...` assignment (Writer). -/
def YamlNode.setValueType : YamlNode → JValue → YType → YamlNode
  | .mk k _ _ l s e c cs p pp, v, t => .mk k v t l s e c cs p pp

structure YamlSection where
  header : String
  comment : String
  lineNumber : Nat
  nodes : List YamlNode

structure ParsedYamlStructure where
  sections : List YamlSection
  flatNodes : List YamlNode
  originalLines : List String
  parsedData : JValue

/-- `getIndentationLevel`: leading spaces count 1, tabs count 2. -/
def indentOf : List Char → Nat
  | [] => 0
  | c :: r =>
    if c = ' ' then 1 + indentOf r
    else if c = '\t' then 2 + indentOf r
    else 0

def getIndentationLevel (line : String) : Nat := indentOf line.data

/-- `getValueType` (shared by parser and writer): the tag of a decoded
value; `undefined`/`null` map to the `null` tag. -/
def getValueType : JValue → YType
  | .vNull => .tNull
  | .vStr _ => .tString
  | .vNum _ => .tNumber
  | .vBool _ => .tBoolean
  | .vArr _ => .tArray
  | .vObj _ => .tObject

/-- `isYamlKeyLine` (receives the trimmed line): non-empty, not a
comment, has a colon, and the part before the first colon is non-empty
with no space. -/
def isYamlKeyLine (line : String) : Bool :=
  if line.length = 0 || line.data.head? = some '#' then false
  else
    match indexOfChar ':' line.data with
    | none => false
    | some colonIndex =>
      let key := trimList (line.data.take colonIndex)
      key.length > 0 && !(key.contains ' ')

/-- `isInlineComment`: the text before the first `#` contains a colon
and is not all whitespace.  (JS `substring(0, -1)` for a missing `#`
yields the empty string.) -/
def isInlineComment (line : String) : Bool :=
  let beforeComment :=
    match indexOfChar '#' line.data with
    | some i => line.data.take i
    | none => []
  beforeComment.contains ':' && (trimList beforeComment).length > 0

/-- `commentToHeader`: title-case every space-separated word. -/
def capitalizeWord (w : String) : String :=
  match w.data with
  | [] => ""
  | c :: r => (c.toUpper :: r).asString

def commentToHeader (comment : String) : String :=
  String.intercalate " " ((jsSplit ' ' comment).map capitalizeWord)

/-- `parseNodeFromLine`: split the trimmed line at the first colon,
strip an inline comment (only when the `#` is not in first position of
the value), decode the scalar, and mark empty/`|`/`>` right-hand sides
as structural parents. -/
def parseNodeFromLine (decodeScalar : String → Option JValue)
    (line : String) (lineNumber : Nat) : Option YamlNode :=
  let trimmedLine := jsTrim line
  match indexOfChar ':' trimmedLine.data with
  | none => none
  | some colonIndex =>
    let key := (trimList (trimmedLine.data.take colonIndex)).asString
    let valueStr := trimList (trimmedLine.data.drop (colonIndex + 1))
    let level := getIndentationLevel line
    let stripped :=
      match indexOfChar '#' valueStr with
      | some hashIndex =>
        if hashIndex > 0 then
          (some (trimList (valueStr.drop (hashIndex + 1))).asString,
           trimList (valueStr.take hashIndex))
        else (none, valueStr)
      | none => (none, valueStr)
    let comment := stripped.1
    let cleanValue := stripped.2.asString
    if cleanValue = "" || cleanValue = "|" || cleanValue = ">" then
      some (.mk key .vNull .tObject level lineNumber lineNumber comment []
        true none)
    else
      match decodeScalar cleanValue with
      | some v =>
        some (.mk key v (getValueType v) level lineNumber lineNumber comment []
          false none)
      | none =>
        some (.mk key (.vStr cleanValue) .tString level lineNumber lineNumber
          comment [] false none)

mutual

/-- `parseNestedStructure(startLine, parentPath)`: children are the
contiguous run of key lines more indented than the line at
`startLine`; blank and comment lines are skipped, a key line at most
as indented breaks the run.  One fuel unit is spent here and one per
`pnsLoop` step (two per nesting level), so any fuel above
`2 * (lines.length - startLine)` computes the full sub-parse
(`pns_fuel_agree`). -/
def parseNestedStructure (decodeScalar : String → Option JValue)
    (lines : List String) : Nat → Nat → String → List YamlNode × Nat
  | 0, startLine, _ => ([], startLine)
  | fuel + 1, startLine, parentPath =>
    pnsLoop decodeScalar lines fuel
      (getIndentationLevel (lines.getD startLine "")) parentPath
      (startLine + 1) startLine []

/-- The scan loop of `parseNestedStructure` (loop variable `i`, the
running `lastProcessedLine`, and the accumulated child nodes). -/
def pnsLoop (decodeScalar : String → Option JValue) (lines : List String) :
    Nat → Nat → String → Nat → Nat → List YamlNode → List YamlNode × Nat
  | 0, _, _, _, lastProcessed, acc => (acc, lastProcessed)
  | fuel + 1, baseIndentation, parentPath, i, lastProcessed, acc =>
    if i < lines.length then
      let line := lines.getD i ""
      let trimmedLine := jsTrim line
      if trimmedLine = "" || trimmedLine.data.head? = some '#' then
        pnsLoop decodeScalar lines fuel baseIndentation parentPath (i + 1)
          lastProcessed acc
      else
        let indentation := getIndentationLevel line
        if indentation ≤ baseIndentation && isYamlKeyLine trimmedLine then
          (acc, lastProcessed)
        else if isYamlKeyLine trimmedLine && indentation > baseIndentation then
          match parseNodeFromLine decodeScalar line i with
          | some node0 =>
            let node := node0.setParentPath parentPath
            if node.type = .tObject && node.isStructuralParent then
              let childParentPath :=
                if parentPath = "" then node.key
                else parentPath ++ "." ++ node.key
              let nested := parseNestedStructure decodeScalar lines fuel i
                childParentPath
              if nested.1.length > 0 then
                pnsLoop decodeScalar lines fuel baseIndentation parentPath
                  (nested.2 + 1) nested.2 (acc ++ [node.setChildren nested.1])
              else
                pnsLoop decodeScalar lines fuel baseIndentation parentPath
                  (i + 1) i (acc ++ [node])
            else
              pnsLoop decodeScalar lines fuel baseIndentation parentPath
                (i + 1) i (acc ++ [node])
          | none =>
            pnsLoop decodeScalar lines fuel baseIndentation parentPath (i + 1)
              lastProcessed acc
        else
          pnsLoop decodeScalar lines fuel baseIndentation parentPath (i + 1)
            lastProcessed acc
    else (acc, lastProcessed)

end

/-- Flush step of `extractSections`, used both at a section-header
boundary and at the end of the line loop (the source spells the same
computation twice): append the pending nodes to the current section
(JS mutates the section object already stored in the array) or put
them in an implicit `Variables` section, and emit all sections in
creation order. -/
def flushSections (closed : List YamlSection) (current : Option YamlSection)
    (pending : List YamlNode) : List YamlSection :=
  if pending.length > 0 then
    match current with
    | some s => closed ++ [{ s with nodes := s.nodes ++ pending }]
    | none => closed ++ [⟨"Variables", "", 0, pending⟩]
  else
    match current with
    | some s => closed ++ [s]
    | none => closed

/-- The line loop of `extractSections`.  `closed` holds the sections
that can no longer change, `current` (if any) is the most recently
created section (only it can still receive nodes), `pending` the
nodes accumulated since the last boundary. -/
def extractLoop (decodeScalar : String → Option JValue)
    (lines : List String) :
    Nat → Nat → List YamlSection → Option YamlSection → List YamlNode →
      List YamlSection
  | 0, _, closed, current, pending => flushSections closed current pending
  | fuel + 1, i, closed, current, pending =>
    if i < lines.length then
      let line := lines.getD i ""
      let trimmedLine := jsTrim line
      if trimmedLine.data.head? = some '#' && !isInlineComment line then
        let closed' := flushSections closed current pending
        let comment := jsTrim (trimmedLine.data.drop 1).asString
        let header := commentToHeader comment
        extractLoop decodeScalar lines fuel (i + 1) closed'
          (some ⟨header, comment, i, []⟩) []
      else if isYamlKeyLine trimmedLine then
        match parseNodeFromLine decodeScalar line i with
        | some node =>
          if node.type = .tObject && node.isStructuralParent then
            let nested := parseNestedStructure decodeScalar lines
              (2 * lines.length + 2) i node.key
            if nested.1.length > 0 then
              extractLoop decodeScalar lines fuel (nested.2 + 1) closed current
                (pending ++ [node.setChildren nested.1])
            else
              extractLoop decodeScalar lines fuel (i + 1) closed current
                (pending ++ [node])
          else
            extractLoop decodeScalar lines fuel (i + 1) closed current
              (pending ++ [node])
        | none =>
          extractLoop decodeScalar lines fuel (i + 1) closed current pending
      else
        extractLoop decodeScalar lines fuel (i + 1) closed current pending
    else flushSections closed current pending

/-- `extractSections`. -/
def extractSections (decodeScalar : String → Option JValue)
    (lines : List String) : List YamlSection :=
  extractLoop decodeScalar lines (lines.length + 1) 0 [] none []

/-- Past the last line, the nested-scan loop returns immediately at
any fuel. -/
theorem pnsLoop_out (d : String → Option JValue) (lines : List String)
    (fuel base : Nat) (pp : String) (i lp : Nat) (acc : List YamlNode)
    (h : lines.length ≤ i) :
    pnsLoop d lines fuel base pp i lp acc = (acc, lp) := by
  cases fuel with
  | zero => rfl
  | succ f =>
    rw [pnsLoop]
    simp [Nat.not_lt.mpr h]

/-- The `lastProcessedLine` returned by the nested scan never
precedes its start line (resp. the loop's running value). -/
theorem pns_lp (d : String → Option JValue) (lines : List String) :
    ∀ fuel : Nat,
      (∀ s pp, s ≤ (parseNestedStructure d lines fuel s pp).2) ∧
      (∀ base pp i lp acc, lp ≤ i →
        lp ≤ (pnsLoop d lines fuel base pp i lp acc).2) := by
  intro fuel
  induction fuel with
  | zero =>
    constructor
    · intro s pp
      exact Nat.le_refl s
    · intro base pp i lp acc h
      exact Nat.le_refl lp
  | succ f ih =>
    constructor
    · intro s pp
      rw [parseNestedStructure]
      exact ih.2 _ _ _ _ [] (Nat.le_succ s)
    · intro base pp i lp acc hlp
      rw [pnsLoop]
      dsimp only
      repeat' split
      all_goals first
        | exact Nat.le_refl lp
        | exact ih.2 _ _ _ _ _ (Nat.le_succ_of_le hlp)
        | exact Nat.le_trans hlp (ih.2 _ _ _ _ _ (Nat.le_succ _))
        | exact Nat.le_trans (Nat.le_trans hlp (ih.1 _ _))
            (ih.2 _ _ _ _ _ (Nat.le_succ _))

/-- Fuel accounting certificate for the nested scan: any two fuels
above `2 * (lines.length - startLine)` (one unit for
`parseNestedStructure`, one per loop step, two per nesting level)
produce the same result, so the budget `2 * lines.length + 2` passed
by `extractLoop` computes the full sub-parse on every input. -/
theorem pns_fuel_agree (d : String → Option JValue) (lines : List String) :
    ∀ f1 : Nat,
      (∀ f2 s pp, 2 * (lines.length - s) ≤ f1 → 0 < f1 →
        2 * (lines.length - s) ≤ f2 → 0 < f2 →
        parseNestedStructure d lines f1 s pp =
          parseNestedStructure d lines f2 s pp) ∧
      (∀ f2 base pp i lp acc,
        2 * (lines.length - i) < f1 → 2 * (lines.length - i) < f2 →
        pnsLoop d lines f1 base pp i lp acc =
          pnsLoop d lines f2 base pp i lp acc) := by
  intro f1
  induction f1 with
  | zero =>
    constructor
    · intro f2 s pp h1 h1p h2 h2p
      exact absurd h1p (Nat.lt_irrefl 0)
    · intro f2 base pp i lp acc h1 h2
      exact absurd h1 (Nat.not_lt_zero _)
  | succ f ih =>
    constructor
    · intro f2 s pp h1 h1p h2 h2p
      cases f2 with
      | zero => exact absurd h2p (Nat.lt_irrefl 0)
      | succ g2 =>
        rw [parseNestedStructure, parseNestedStructure]
        by_cases hs : s + 1 < lines.length
        · refine ih.2 g2 _ _ _ _ _ ?_ ?_ <;> omega
        · rw [pnsLoop_out d lines f _ _ _ _ _ (by omega),
            pnsLoop_out d lines g2 _ _ _ _ _ (by omega)]
    · intro f2 base pp i lp acc h1 h2
      cases f2 with
      | zero => exact absurd h2 (Nat.not_lt_zero _)
      | succ g2 =>
        rw [pnsLoop, pnsLoop]
        dsimp only
        split
        · rename_i hi
          split
          · refine ih.2 g2 _ _ _ _ _ ?_ ?_ <;> omega
          · split
            · rfl
            · split
              · split
                · rename_i node0 hnode
                  split
                  · split
                    · have hnd := ih.1 g2 i (node0.setParentPath pp).key
                        (by omega) (by omega) (by omega) (by omega)
                      rw [hnd]
                      have hj := (pns_lp d lines g2).1 i
                        (node0.setParentPath pp).key
                      split
                      · refine ih.2 g2 _ _ _ _ _ ?_ ?_ <;> omega
                      · refine ih.2 g2 _ _ _ _ _ ?_ ?_ <;> omega
                    · have hnd := ih.1 g2 i
                        (pp ++ "." ++ (node0.setParentPath pp).key)
                        (by omega) (by omega) (by omega) (by omega)
                      rw [hnd]
                      have hj := (pns_lp d lines g2).1 i
                        (pp ++ "." ++ (node0.setParentPath pp).key)
                      split
                      · refine ih.2 g2 _ _ _ _ _ ?_ ?_ <;> omega
                      · refine ih.2 g2 _ _ _ _ _ ?_ ?_ <;> omega
                  · refine ih.2 g2 _ _ _ _ _ ?_ ?_ <;> omega
                · refine ih.2 g2 _ _ _ _ _ ?_ ?_ <;> omega
              · refine ih.2 g2 _ _ _ _ _ ?_ ?_ <;> omega
        · rfl

/-- The line loop of `extractSections` advances its index by at least
one per fuel unit (nested jumps land at `lastProcessedLine + 1`, which
`pns_lp` bounds below by `i + 1`), so any two fuels above
`lines.length - i` agree; in particular `lines.length + 1` suffices. -/
theorem extractLoop_fuel_agree (d : String → Option JValue)
    (lines : List String) :
    ∀ f1 f2 i closed current pending,
      lines.length - i < f1 → lines.length - i < f2 →
      extractLoop d lines f1 i closed current pending =
        extractLoop d lines f2 i closed current pending := by
  intro f1
  induction f1 with
  | zero =>
    intro f2 i closed current pending h1 h2
    exact absurd h1 (Nat.not_lt_zero _)
  | succ f ih =>
    intro f2 i closed current pending h1 h2
    cases f2 with
    | zero => exact absurd h2 (Nat.not_lt_zero _)
    | succ g2 =>
      rw [extractLoop, extractLoop]
      dsimp only
      split
      · rename_i hi
        split
        · refine ih g2 _ _ _ _ ?_ ?_ <;> omega
        · split
          · split
            · rename_i node hnode
              split
              · have hj := (pns_lp d lines (2 * lines.length + 2)).1 i node.key
                split
                · refine ih g2 _ _ _ _ ?_ ?_ <;> omega
                · refine ih g2 _ _ _ _ ?_ ?_ <;> omega
              · refine ih g2 _ _ _ _ ?_ ?_ <;> omega
            · refine ih g2 _ _ _ _ ?_ ?_ <;> omega
          · refine ih g2 _ _ _ _ ?_ ?_ <;> omega
      · rfl

mutual

/-- One step of `flattenNodes`' depth-first walk: the node itself,
then (when the `node.children && node.children.length > 0` test
passes) its flattened children.  Structural over the nested node
type, so no fuel is needed. -/
def flattenNode : YamlNode → List YamlNode
  | .mk k v t l s e c cs p pp =>
    .mk k v t l s e c cs p pp ::
      (if cs.length > 0 then flattenList cs else [])

/-- `flattenNodes`' walk over a node list (each node, then its
children, then its siblings). -/
def flattenList : List YamlNode → List YamlNode
  | [] => []
  | n :: rest => flattenNode n ++ flattenList rest

end

/-- `flattenNodes(sections)`. -/
def flattenNodes (sections : List YamlSection) : List YamlNode :=
  sections.flatMap fun s => flattenList s.nodes

/-- `YamlStructureParser.parse`.  `decodeDoc` models the whole-document
js-yaml FAILSAFE load (`none` = exception, caught); the falsy-check
models `(yaml.load(...) as Record) || {}`.  The duplicate-key
validator only emits a console warning and does not influence the
result, so it is not modelled. -/
def parse (decodeDoc decodeScalar : String → Option JValue)
    (yamlContent : String) : ParsedYamlStructure :=
  let lines := jsSplit '\n' yamlContent
  let parsedData :=
    match decodeDoc yamlContent with
    | some v => if v.truthy then v else .vObj []
    | none => .vObj []
  let sections := extractSections decodeScalar lines
  let flatNodes := flattenNodes sections
  { sections := sections, flatNodes := flatNodes, originalLines := lines,
    parsedData := parsedData }

/-! ## C5: leaf nodes have no children -/

/-- The tree invariant behind C5: a non-structural-parent (leaf) node
has an empty `children` list, hereditarily. -/
inductive LeafChildless : YamlNode → Prop where
  | intro (n : YamlNode)
      (h1 : n.isStructuralParent = false → n.children = [])
      (h2 : ∀ c ∈ n.children, LeafChildless c) : LeafChildless n

theorem LeafChildless.leaf {n : YamlNode} (h : LeafChildless n) :
    n.isStructuralParent = false → n.children = [] := by
  cases h with
  | intro n h1 h2 => exact h1

theorem LeafChildless.child {n : YamlNode} (h : LeafChildless n) :
    ∀ c ∈ n.children, LeafChildless c := by
  cases h with
  | intro n h1 h2 => exact h2

theorem parseNodeFromLine_children {d : String → Option JValue}
    {line : String} {i : Nat} {n : YamlNode}
    (h : parseNodeFromLine d line i = some n) : n.children = [] := by
  rw [parseNodeFromLine] at h
  split at h
  · cases h
  · dsimp only at h
    split at h
    · cases h
      rfl
    · split at h
      · cases h
        rfl
      · cases h
        rfl

theorem parseNodeFromLine_LC {d : String → Option JValue}
    {line : String} {i : Nat} {n : YamlNode}
    (h : parseNodeFromLine d line i = some n) : LeafChildless n := by
  have hc := parseNodeFromLine_children h
  exact .intro n (fun _ => hc) (by rw [hc]; intro c hc'; cases hc')

theorem setParentPath_children (n : YamlNode) (pp : String) :
    (n.setParentPath pp).children = n.children := by
  cases n; rfl

theorem setParentPath_SP (n : YamlNode) (pp : String) :
    (n.setParentPath pp).isStructuralParent = n.isStructuralParent := by
  cases n; rfl

theorem setParentPath_LC {n : YamlNode} (h : LeafChildless n) (pp : String) :
    LeafChildless (n.setParentPath pp) := by
  refine .intro _ ?_ ?_
  · rw [setParentPath_children, setParentPath_SP]
    exact h.leaf
  · rw [setParentPath_children]
    exact h.child

theorem setChildren_children (n : YamlNode) (cs : List YamlNode) :
    (n.setChildren cs).children = cs := by
  cases n; rfl

theorem setChildren_SP (n : YamlNode) (cs : List YamlNode) :
    (n.setChildren cs).isStructuralParent = n.isStructuralParent := by
  cases n; rfl

theorem setChildren_LC {n : YamlNode} {cs : List YamlNode}
    (hsp : n.isStructuralParent = true) (hcs : ∀ c ∈ cs, LeafChildless c) :
    LeafChildless (n.setChildren cs) := by
  refine .intro _ ?_ ?_
  · rw [setChildren_SP, hsp]
    intro h
    cases h
  · rw [setChildren_children]
    exact hcs

theorem pns_LC (d : String → Option JValue) (lines : List String) :
    ∀ fuel : Nat,
      (∀ startLine pp, ∀ n ∈ (parseNestedStructure d lines fuel startLine pp).1,
        LeafChildless n) ∧
      (∀ base pp i lp acc, (∀ m ∈ acc, LeafChildless m) →
        ∀ n ∈ (pnsLoop d lines fuel base pp i lp acc).1, LeafChildless n) := by
  intro fuel
  induction fuel with
  | zero =>
    constructor
    · intro startLine pp n hn
      cases hn
    · intro base pp i lp acc hacc n hn
      exact hacc n hn
  | succ f ih =>
    constructor
    · intro startLine pp n hn
      rw [parseNestedStructure] at hn
      exact ih.2 _ _ _ _ [] (by intro m hm; cases hm) n hn
    · intro base pp i lp acc hacc n hn
      rw [pnsLoop] at hn
      dsimp only at hn
      split at hn
      · split at hn
        · exact ih.2 _ _ _ _ _ hacc n hn
        · split at hn
          · exact hacc n hn
          · split at hn
            · split at hn
              · rename_i node0 hnode
                split at hn
                · rename_i hobj
                  have hsp := (Bool.and_eq_true _ _).mp hobj |>.2
                  split at hn <;> split at hn <;>
                    refine ih.2 _ _ _ _ _ ?_ n hn <;>
                    intro m hm <;>
                    rcases List.mem_append.mp hm with hm | hm <;>
                      first
                        | exact hacc m hm
                        | (rcases List.mem_singleton.mp hm with rfl
                           first
                             | exact setChildren_LC hsp fun c hc => ih.1 _ _ c hc
                             | exact setParentPath_LC
                                 (parseNodeFromLine_LC hnode) _)
                · refine ih.2 _ _ _ _ _ ?_ n hn
                  intro m hm
                  rcases List.mem_append.mp hm with hm | hm
                  · exact hacc m hm
                  · rcases List.mem_singleton.mp hm with rfl
                    exact setParentPath_LC (parseNodeFromLine_LC hnode) _
              · exact ih.2 _ _ _ _ _ hacc n hn
            · exact ih.2 _ _ _ _ _ hacc n hn
      · exact hacc n hn

/-- All nodes of a section satisfy the C5 tree invariant. -/
def SecLC (s : YamlSection) : Prop := ∀ n ∈ s.nodes, LeafChildless n

theorem flushSections_LC {closed : List YamlSection}
    {current : Option YamlSection} {pending : List YamlNode}
    (hc : ∀ s ∈ closed, SecLC s) (hcur : ∀ s, current = some s → SecLC s)
    (hp : ∀ n ∈ pending, LeafChildless n) :
    ∀ s ∈ flushSections closed current pending, SecLC s := by
  intro s hs
  rw [flushSections.eq_def] at hs
  cases current with
  | none =>
    split at hs
    · rcases List.mem_append.mp hs with hs | hs
      · exact hc s hs
      · rcases List.mem_singleton.mp hs with rfl
        intro n hn
        exact hp n hn
    · exact hc s hs
  | some sec =>
    split at hs
    · rcases List.mem_append.mp hs with hs | hs
      · exact hc s hs
      · rcases List.mem_singleton.mp hs with rfl
        intro n hn
        rcases List.mem_append.mp hn with hn | hn
        · exact hcur sec rfl n hn
        · exact hp n hn
    · rcases List.mem_append.mp hs with hs | hs
      · exact hc s hs
      · rcases List.mem_singleton.mp hs with rfl
        exact hcur _ rfl

theorem extractLoop_LC (d : String → Option JValue) (lines : List String) :
    ∀ (fuel i : Nat) (closed : List YamlSection) (current : Option YamlSection)
      (pending : List YamlNode),
      (∀ s ∈ closed, SecLC s) → (∀ s, current = some s → SecLC s) →
      (∀ n ∈ pending, LeafChildless n) →
      ∀ s ∈ extractLoop d lines fuel i closed current pending, SecLC s := by
  intro fuel
  induction fuel with
  | zero =>
    intro i closed current pending hc hcur hp s hs
    exact flushSections_LC hc hcur hp s hs
  | succ f ih =>
    intro i closed current pending hc hcur hp s hs
    rw [extractLoop.eq_def] at hs
    dsimp only at hs
    split at hs
    · split at hs
      · refine ih _ _ _ _ ?_ ?_ ?_ s hs
        · exact flushSections_LC hc hcur hp
        · intro t ht
          cases ht
          intro n hn
          cases hn
        · intro n hn
          cases hn
      · split at hs
        · split at hs
          · rename_i node hnode
            split at hs
            · rename_i hobj
              have hsp := (Bool.and_eq_true _ _).mp hobj |>.2
              split at hs <;>
                refine ih _ _ _ _ hc hcur ?_ s hs <;>
                intro m hm <;>
                rcases List.mem_append.mp hm with hm | hm <;>
                  first
                    | exact hp m hm
                    | (rcases List.mem_singleton.mp hm with rfl
                       first
                         | exact setChildren_LC hsp fun c hc' =>
                             (pns_LC d lines _).1 _ _ c hc'
                         | exact parseNodeFromLine_LC hnode)
            · refine ih _ _ _ _ hc hcur ?_ s hs
              intro m hm
              rcases List.mem_append.mp hm with hm | hm
              · exact hp m hm
              · rcases List.mem_singleton.mp hm with rfl
                exact parseNodeFromLine_LC (by assumption)
          · exact ih _ _ _ _ hc hcur hp s hs
        · exact ih _ _ _ _ hc hcur hp s hs
    · exact flushSections_LC hc hcur hp s hs

theorem flattenList_LC :
    ∀ nodes : List YamlNode, (∀ n ∈ nodes, LeafChildless n) →
      ∀ m ∈ flattenList nodes, LeafChildless m := by
  refine @flattenList.induct
    (fun n => LeafChildless n → ∀ m ∈ flattenNode n, LeafChildless m)
    (fun nodes => (∀ n ∈ nodes, LeafChildless n) →
      ∀ m ∈ flattenList nodes, LeafChildless m) ?_ ?_ ?_
  · intro k v t l s e c cs p pp ih hn m hm
    rw [flattenNode] at hm
    rcases List.mem_cons.mp hm with rfl | hm
    · exact hn
    · split at hm
      · exact ih hn.child m hm
      · cases hm
  · intro h m hm
    cases hm
  · intro n rest ih1 ih2 h m hm
    rw [flattenList] at hm
    rcases List.mem_append.mp hm with hm | hm
    · exact ih1 (h n (by simp)) m hm
    · exact ih2 (fun x hx => h x (by simp [hx])) m hm

/-- C5 (amended): after any parse, every leaf node
(`isStructuralParent = false`) anywhere in the structure has an empty
`children` list.  The other half of the original claim is refuted by
`C5_counterexample`: a structural parent whose header line is not
followed by any more-indented key line keeps an empty `children`
list. -/
theorem C5_leaves_childless (decodeDoc decodeScalar : String → Option JValue)
    (content : String) (n : YamlNode)
    (hn : n ∈ (parse decodeDoc decodeScalar content).flatNodes)
    (hleaf : n.isStructuralParent = false) : n.children = [] := by
  rw [parse] at hn
  dsimp only [flattenNodes] at hn
  rcases List.mem_flatMap.mp hn with ⟨s, hs, hm⟩
  have hsec : SecLC s := by
    refine extractLoop_LC decodeScalar _ _ _ _ _ _ ?_ ?_ ?_ s hs
    · intro t ht
      cases ht
    · intro t ht
      cases ht
    · intro m hm
      cases hm
  exact (flattenList_LC _ hsec n hm).leaf hleaf

/-- Model of the external js-yaml scalar load with the default schema
(library code, not part of this repository), restricted to the scalar
shapes exercised by the concrete inputs in this file: booleans,
`null`/`~`, decimal integers, double-quoted strings; any other scalar
parses as the plain string, as js-yaml does for plain scalars. -/
def isDigits (l : List Char) : Bool := !l.isEmpty && l.all Char.isDigit

def jsYamlScalarModel : String → Option JValue := fun s =>
  if s = "true" then some (.vBool true)
  else if s = "false" then some (.vBool false)
  else if s = "null" || s = "~" then some .vNull
  else if isDigits s.data then some (.vNum (digitsToNat s.data))
  else
    match s.data with
    | '"' :: rest =>
      if rest ≠ [] && rest.getLast? = some '"' then
        some (.vStr rest.dropLast.asString)
      else some (.vStr s)
    | _ => some (.vStr s)

/-- Model of the external js-yaml whole-document load with the
FAILSAFE schema and `json: true` (library code, not part of this
repository), given explicitly on the documents used in the concrete
theorems of this file; under FAILSAFE every scalar is a string and an
empty value is `null`. -/
def jsYamlFailsafeDoc : String → Option JValue := fun s =>
  if s = "a:" then some (.vObj [("a", .vNull)])
  else if s = "a: 1" then some (.vObj [("a", .vStr "1")])
  else if s = "a: \"x\"\nb: 1" then
    some (.vObj [("a", .vStr "x"), ("b", .vStr "1")])
  else none

/-- C5 counterexample: parsing the single line `a:` succeeds and
yields a node with `isStructuralParent = true` and an empty `children`
list, refuting the half of the claim that says a structural parent
always has non-empty children. -/
theorem C5_counterexample :
    (YamlNode.mk "a" .vNull .tObject 0 0 0 none [] true none) ∈
      (parse jsYamlFailsafeDoc jsYamlScalarModel "a:").flatNodes ∧
    (YamlNode.mk "a" .vNull .tObject 0 0 0 none [] true
        none).isStructuralParent = true ∧
    (YamlNode.mk "a" .vNull .tObject 0 0 0 none [] true none).children = [] := by
  refine ⟨?_, rfl, rfl⟩
  rw [show (parse jsYamlFailsafeDoc jsYamlScalarModel "a:").flatNodes =
    [YamlNode.mk "a" .vNull .tObject 0 0 0 none [] true none] from rfl]
  exact List.mem_singleton.mpr rfl

theorem C5_leaves_childless_witness :
    (YamlNode.mk "a" (.vNum 1) .tNumber 0 0 0 none [] false none) ∈
      (parse jsYamlFailsafeDoc jsYamlScalarModel "a: 1").flatNodes ∧
    (YamlNode.mk "a" (.vNum 1) .tNumber 0 0 0 none [] false
        none).isStructuralParent = false ∧
    (YamlNode.mk "a" (.vNum 1) .tNumber 0 0 0 none [] false
        none).children = [] := by
  have hmem : (YamlNode.mk "a" (.vNum 1) .tNumber 0 0 0 none [] false none) ∈
      (parse jsYamlFailsafeDoc jsYamlScalarModel "a: 1").flatNodes := by
    rw [show (parse jsYamlFailsafeDoc jsYamlScalarModel "a: 1").flatNodes =
      [YamlNode.mk "a" (.vNum 1) .tNumber 0 0 0 none [] false none] from rfl]
    exact List.mem_singleton.mpr rfl
  exact ⟨hmem, rfl,
    C5_leaves_childless jsYamlFailsafeDoc jsYamlScalarModel "a: 1" _ hmem rfl⟩

/-! ## VariableCache

Embedding of src/src/modules/VariableCache.ts (the first, current
version in the file): the per-project cache map, `getNestedValue`,
`get`, and `loadVariables` as an explicit state transformer that also
counts underlying file reads.  The rate-limited `Notice` shown by
`notifyError` is wall-clock based and outside the claims, so it is not
modelled. -/

structure ProjectInfo where
  root : String
  variablesPath : String
deriving DecidableEq, Repr

structure CacheEntry where
  data : JValue
  version : Nat
  lastModified : Int

structure VaultFile where
  path : String
  content : String
  mtime : Int

structure CacheState where
  cache : List (String × CacheEntry)
  structureCache : List (String × ParsedYamlStructure)
  version : Nat

def emptyCacheState : CacheState := ⟨[], [], 0⟩

/-- The loop of `getNestedValue`: `current = current[key]` for each
dot segment, returning `undefined` the moment `current` is `null` or
`undefined` (before indexing and after the loop). -/
def walkPath : JValue → List String → Option JValue
  | .vNull, _ => none
  | v, [] => some v
  | v, k :: ks => (jsIndex v k).bind fun w => walkPath w ks

namespace VariableCache

/-- `getNestedValue(obj, path)`: walk the dot segments, then coerce
with JS `String(...)`. -/
def getNestedValue (obj : JValue) (path : String) : Option String :=
  (walkPath obj (jsSplit '.' path)).map jsToString

/-- `get(projectInfo, key)`. -/
def get (st : CacheState) (projectInfo : ProjectInfo) (key : String) :
    Option String :=
  match st.cache.lookup projectInfo.root with
  | none => none
  | some entry => getNestedValue entry.data key

/-- `loadVariables(projectInfo)`: returns the produced entry (if any),
the new cache state, and the number of underlying file reads
performed.  `decodeDoc` is the FAILSAFE whole-document js-yaml load
(`none` = exception); a parse exception is caught after the structure
cache has already been updated, exactly as in the source. -/
def loadVariables (decodeDoc decodeScalar : String → Option JValue)
    (vault : List VaultFile) (st : CacheState) (projectInfo : ProjectInfo) :
    Option CacheEntry × CacheState × Nat :=
  match st.cache.lookup projectInfo.root with
  | some cached => (some cached, st, 0)
  | none =>
    match vault.find? (fun f => f.path = projectInfo.variablesPath) with
    | none => (none, st, 0)
    | some file =>
      let structure0 := parse decodeDoc decodeScalar file.content
      let st1 : CacheState :=
        { st with structureCache :=
            mapSet st.structureCache projectInfo.root structure0 }
      match decodeDoc file.content with
      | none => (none, st1, 1)
      | some data =>
        let entry : CacheEntry :=
          { data := if data.truthy then data else .vObj [],
            version := st1.version + 1, lastModified := file.mtime }
        (some entry,
         { st1 with cache := mapSet st1.cache projectInfo.root entry,
                    version := st1.version + 1 }, 1)

end VariableCache

theorem mapSet_lookup_self {α : Type} (m : List (String × α)) (k : String)
    (v : α) : (mapSet m k v).lookup k = some v := by
  induction m with
  | nil => simp [mapSet, List.lookup]
  | cons p rest ih =>
    obtain ⟨k', v'⟩ := p
    rw [mapSet]
    split
    · simp [List.lookup]
    · rename_i hne
      simp only [List.lookup]
      rw [show (k == k') = false from beq_eq_false_iff_ne.mpr fun h => hne h.symm]
      exact ih

/-- C8: with a cold cache, a successful load performs exactly one
underlying file read, and a second load for the same project performs
no read, leaves the state unchanged, and returns the very entry the
first call cached (same data, same version). -/
theorem C8_load_twice_single_read
    (decodeDoc decodeScalar : String → Option JValue)
    (vault : List VaultFile) (st : CacheState) (p : ProjectInfo)
    (entry : CacheEntry)
    (hcold : st.cache.lookup p.root = none)
    (hfirst : (VariableCache.loadVariables decodeDoc decodeScalar vault st
      p).1 = some entry) :
    (VariableCache.loadVariables decodeDoc decodeScalar vault st p).2.2 = 1 ∧
    VariableCache.loadVariables decodeDoc decodeScalar vault
        (VariableCache.loadVariables decodeDoc decodeScalar vault st p).2.1 p =
      (some entry,
       (VariableCache.loadVariables decodeDoc decodeScalar vault st p).2.1,
       0) := by
  cases hfind : vault.find? (fun f => decide (f.path = p.variablesPath)) with
  | none =>
    simp only [VariableCache.loadVariables, hcold, hfind] at hfirst
    cases hfirst
  | some file =>
    cases hdec : decodeDoc file.content with
    | none =>
      simp only [VariableCache.loadVariables, hcold, hfind, hdec] at hfirst
      cases hfirst
    | some data =>
      simp only [VariableCache.loadVariables, hcold, hfind, hdec] at hfirst ⊢
      cases hfirst
      refine ⟨trivial, ?_⟩
      rw [mapSet_lookup_self]

theorem C8_load_twice_single_read_witness :
    ((emptyCacheState.cache.lookup "p" = none) ∧
     (VariableCache.loadVariables jsYamlFailsafeDoc jsYamlScalarModel
        [⟨"p/_variables.yml", "a: 1", 5⟩] emptyCacheState
        ⟨"p", "p/_variables.yml"⟩).1 =
       some ⟨.vObj [("a", .vStr "1")], 1, 5⟩) ∧
    ((VariableCache.loadVariables jsYamlFailsafeDoc jsYamlScalarModel
        [⟨"p/_variables.yml", "a: 1", 5⟩] emptyCacheState
        ⟨"p", "p/_variables.yml"⟩).2.2 = 1 ∧
     VariableCache.loadVariables jsYamlFailsafeDoc jsYamlScalarModel
        [⟨"p/_variables.yml", "a: 1", 5⟩]
        (VariableCache.loadVariables jsYamlFailsafeDoc jsYamlScalarModel
          [⟨"p/_variables.yml", "a: 1", 5⟩] emptyCacheState
          ⟨"p", "p/_variables.yml"⟩).2.1 ⟨"p", "p/_variables.yml"⟩ =
       (some ⟨.vObj [("a", .vStr "1")], 1, 5⟩,
        (VariableCache.loadVariables jsYamlFailsafeDoc jsYamlScalarModel
          [⟨"p/_variables.yml", "a: 1", 5⟩] emptyCacheState
          ⟨"p", "p/_variables.yml"⟩).2.1, 0)) :=
  ⟨⟨rfl, rfl⟩,
   C8_load_twice_single_read jsYamlFailsafeDoc jsYamlScalarModel
     [⟨"p/_variables.yml", "a: 1", 5⟩] emptyCacheState
     ⟨"p", "p/_variables.yml"⟩ ⟨.vObj [("a", .vStr "1")], 1, 5⟩ rfl rfl⟩

/-! ## C7: nested lookup -/

/-- Comma-join of already-rendered elements (spec side). -/
def joinComma : List String → String
  | [] => ""
  | [x] => x
  | x :: y :: r => x ++ "," ++ joinComma (y :: r)

mutual

/-- Specification-side display-text form for C7, written from the
claim's words: numbers and booleans stringified, arrays joined with a
comma, strings as themselves, nested objects summarized rather than
traversed. -/
def displayText : JValue → String
  | .vNull => "null"
  | .vBool b => if b then "true" else "false"
  | .vNum n => toString n
  | .vStr s => s
  | .vArr xs => joinComma (displayList xs)
  | .vObj _ => "[object Object]"

/-- Rendering of array elements for the display join (a `null`
element renders as the empty string, as the JS join does). -/
def displayList : List JValue → List String
  | [] => []
  | x :: xs =>
    (match x with
     | .vNull => ""
     | v => displayText v) :: displayList xs

end

/-- Specification-side lookup for C7, written from the amended
claim's words: descend one dot-segment at a time; return `undefined`
as soon as a segment is missing, or the traversal reaches `null`, a
number, or a boolean, or a string with a segment that is neither a
canonical character index nor `length`; a string's character/length
segments resolve to the character / the length; when the full path
resolves, the result is the display-text form. -/
def specGet : JValue → List String → Option String
  | .vNull, _ => none
  | v, [] => some (displayText v)
  | .vObj fields, k :: ks =>
    match fields.lookup k with
    | none => none
    | some w => specGet w ks
  | .vArr xs, k :: ks =>
    if k = "length" then specGet (.vNum xs.length) ks
    else
      match canonicalIndex k with
      | none => none
      | some i =>
        match xs.get? i with
        | none => none
        | some w => specGet w ks
  | .vStr s, k :: ks =>
    if k = "length" then specGet (.vNum s.length) ks
    else
      match canonicalIndex k with
      | none => none
      | some i =>
        match s.data.get? i with
        | none => none
        | some c => specGet (.vStr (String.mk [c])) ks
  | .vNum _, _ :: _ => none
  | .vBool _, _ :: _ => none

theorem jsToString_eq_displayText : ∀ v, jsToString v = displayText v := by
  refine @jsToString.induct (fun v => jsToString v = displayText v)
    (fun xs => jsJoinComma xs = joinComma (displayList xs))
    ?_ ?_ ?_ ?_ ?_ ?_ ?_ ?_ ?_ ?_ ?_
  · rfl
  · rfl
  · intro b hb
    rfl
  · intro n
    rfl
  · intro s
    rfl
  · intro xs ih
    rw [jsToString, displayText, ih]
  · intro fields
    rfl
  · rfl
  · rfl
  · intro v hne ih
    cases v with
    | vNull => exact absurd rfl hne
    | vBool b => exact ih
    | vNum n => exact ih
    | vStr s => exact ih
    | vArr xs => exact ih
    | vObj fields => exact ih
  · intro x y xs hx ih2
    have appendCongr : ∀ (a a' t t' : String), a = a' → t = t' →
        a ++ "," ++ t = a' ++ "," ++ t' := by
      intro a a' t t' h1 h2
      rw [h1, h2]
    cases x with
    | vNull =>
      exact appendCongr _ _ _ (joinComma (displayList (y :: xs))) rfl ih2
    | vBool b =>
      exact appendCongr _ _ _ (joinComma (displayList (y :: xs))) hx ih2
    | vNum n =>
      exact appendCongr _ _ _ (joinComma (displayList (y :: xs))) hx ih2
    | vStr s =>
      exact appendCongr _ _ _ (joinComma (displayList (y :: xs))) hx ih2
    | vArr xs2 =>
      exact appendCongr _ _ _ (joinComma (displayList (y :: xs))) hx ih2
    | vObj fields =>
      exact appendCongr _ _ _ (joinComma (displayList (y :: xs))) hx ih2

theorem walkPath_eq_specGet :
    ∀ (ks : List String) (v : JValue),
      (walkPath v ks).map jsToString = specGet v ks := by
  intro ks
  induction ks with
  | nil =>
    intro v
    cases v with
    | vNull => rfl
    | vBool b => exact congrArg some (jsToString_eq_displayText _)
    | vNum n => exact congrArg some (jsToString_eq_displayText _)
    | vStr s => exact congrArg some (jsToString_eq_displayText _)
    | vArr xs => exact congrArg some (jsToString_eq_displayText _)
    | vObj fields => exact congrArg some (jsToString_eq_displayText _)
  | cons k ks ih =>
    intro v
    cases v with
    | vNull => rfl
    | vBool b => rfl
    | vNum n => rfl
    | vObj fields =>
      rw [walkPath, specGet]
      cases hl : fields.lookup k with
      | none => simp [jsIndex, hl]
      | some w => simp only [jsIndex, hl, Option.some_bind]; exact ih w
      exact fun h => JValue.noConfusion h
    | vArr xs =>
      rw [walkPath, specGet]
      by_cases hk : k = "length"
      · simp only [jsIndex, hk, if_true, Option.some_bind, if_pos rfl]
        exact ih _
      · simp only [jsIndex, hk, if_false, if_neg hk]
        cases hc : canonicalIndex k with
        | none => rfl
        | some i =>
          simp only [Option.some_bind]
          cases hg : xs.get? i with
          | none => rfl
          | some w => simp only [Option.some_bind]; exact ih w
      exact fun h => JValue.noConfusion h
    | vStr s =>
      rw [walkPath, specGet]
      by_cases hk : k = "length"
      · simp only [jsIndex, hk, if_true, Option.some_bind, if_pos rfl]
        exact ih _
      · simp only [jsIndex, hk, if_false, if_neg hk]
        cases hc : canonicalIndex k with
        | none => rfl
        | some i =>
          simp only [Option.some_bind]
          cases hg : s.data.get? i with
          | none => rfl
          | some c => simp only [Option.map_some, Option.some_bind]; exact ih _
      exact fun h => JValue.noConfusion h

/-- C7 (amended): `getNestedValue` descends `parsedData` one
dot-segment at a time and agrees everywhere with the
specification-side `specGet` — `undefined` as soon as a segment is
missing or the traversal reaches `null`, a number or a boolean, with
the one carve-out the code forces: a string reached mid-path still
yields its character at a canonical index segment (or its length at
`length`); a resolved value is returned in display-text form.  In
particular the two examples: for `{a: {b: {c: 5}}}`, `get "a.b.c"`
returns `"5"` and `get "a.b.x"` returns `undefined`. -/
theorem C7_get_descends_and_displays :
    (∀ (data : JValue) (key : String),
      VariableCache.getNestedValue data key = specGet data (jsSplit '.' key)) ∧
    VariableCache.get
      ⟨[("p", ⟨.vObj [("a", .vObj [("b", .vObj [("c", .vNum 5)])])], 1, 0⟩)],
       [], 1⟩ ⟨"p", "p/_variables.yml"⟩ "a.b.c" = some "5" ∧
    VariableCache.get
      ⟨[("p", ⟨.vObj [("a", .vObj [("b", .vObj [("c", .vNum 5)])])], 1, 0⟩)],
       [], 1⟩ ⟨"p", "p/_variables.yml"⟩ "a.b.x" = none :=
  ⟨fun data key => walkPath_eq_specGet (jsSplit '.' key) data, rfl, rfl⟩

/-- C7 counterexample: the code never tests for "non-container"; it
relies on JS property access returning `undefined`.  A string is a
non-container, yet a numeric segment indexes into it: with cached
data `{a: "hi"}`, `get(project, "a.0")` returns `"h"` where the claim
as stated requires `undefined`. -/
theorem C7_counterexample :
    VariableCache.get ⟨[("p", ⟨.vObj [("a", .vStr "hi")], 1, 0⟩)], [], 1⟩
      ⟨"p", "p/_variables.yml"⟩ "a.0" = some "h" ∧
    VariableCache.get ⟨[("p", ⟨.vObj [("a", .vStr "hi")], 1, 0⟩)], [], 1⟩
      ⟨"p", "p/_variables.yml"⟩ "a.0" ≠ none :=
  ⟨rfl, by decide⟩

/-! ## PlaceholderRenderer

Embedding of `PlaceholderRenderer.buildDecorations`
(src/unnamed/part_003).  A `Decoration.replace` with a
`VariableWidget(text, settings, resolved)` is modelled as a `Deco`
carrying the replaced span and the widget payload.  The surrounding
state machine (debounce timers, background loads) is event-loop based
and not needed by the claims. -/

structure PluginSettings where
  highlightUnresolvedVariables : Bool
deriving DecidableEq, Repr

structure Widget where
  text : String
  resolved : Bool
deriving DecidableEq, Repr

structure Deco where
  dFrom : Nat
  dTo : Nat
  widget : Widget
deriving DecidableEq, Repr

/-- The match loop of `buildDecorations`: skip any match whose span
contains the cursor (inclusive on both ends); without a project every
match renders as a raw flagged widget; otherwise a resolved key
renders its value and an unresolved key renders raw only when
highlighting is enabled. -/
def buildDecorationsCore (ms : List VariableMatch) (cursorPos : Nat)
    (currentProject : Option ProjectInfo) (st : CacheState)
    (settings : PluginSettings) : List Deco :=
  match ms with
  | [] => []
  | m :: rest =>
    if cursorPos ≥ m.vFrom && cursorPos ≤ m.vTo then
      buildDecorationsCore rest cursorPos currentProject st settings
    else
      match currentProject with
      | none =>
        ⟨m.vFrom, m.vTo, ⟨"\x7b\x7b<var " ++ m.key ++ ">\x7d\x7d", false⟩⟩ ::
          buildDecorationsCore rest cursorPos currentProject st settings
      | some proj =>
        match VariableCache.get st proj m.key with
        | some value =>
          ⟨m.vFrom, m.vTo, ⟨value, true⟩⟩ ::
            buildDecorationsCore rest cursorPos currentProject st settings
        | none =>
          if settings.highlightUnresolvedVariables then
            ⟨m.vFrom, m.vTo, ⟨"\x7b\x7b<var " ++ m.key ++ ">\x7d\x7d", false⟩⟩ ::
              buildDecorationsCore rest cursorPos currentProject st settings
          else
            buildDecorationsCore rest cursorPos currentProject st settings

/-- `buildDecorations`: gate on an active `.qmd` file, scan the
viewport through the range-scoped scanner cache, then run the match
loop at the current cursor position. -/
def buildDecorations (isQmdActive : Bool) (viewportText : String)
    (viewportFrom viewportTo : Nat) (scanSt : ScannerState) (cursorPos : Nat)
    (currentProject : Option ProjectInfo) (cacheSt : CacheState)
    (settings : PluginSettings) : List Deco × ScannerState :=
  if !isQmdActive then ([], scanSt)
  else
    let r := findAllInRange viewportText viewportFrom viewportTo scanSt
    (buildDecorationsCore r.1 cursorPos currentProject cacheSt settings, r.2)

/-- C9: for every set of scanner matches, cursor position, project and
cache contents, the rebuilt decoration list contains no replacement
decoration whose span contains the cursor offset (inclusive on both
ends) — decorations only arise from matches, with the match's exact
span, and any match containing the cursor is skipped even when its key
resolves. -/
theorem C9_cursor_suppression (ms : List VariableMatch) (cursorPos : Nat)
    (currentProject : Option ProjectInfo) (st : CacheState)
    (settings : PluginSettings) (d : Deco)
    (hd : d ∈ buildDecorationsCore ms cursorPos currentProject st settings) :
    ¬(d.dFrom ≤ cursorPos ∧ cursorPos ≤ d.dTo) := by
  induction ms with
  | nil => cases hd
  | cons m rest ih =>
    simp only [buildDecorationsCore] at hd
    split at hd
    · exact ih hd
    · rename_i hskip
      have hout : ¬(cursorPos ≥ m.vFrom ∧ cursorPos ≤ m.vTo) := by
        intro hin
        exact hskip (by simp [hin.1, hin.2])
      split at hd
      · rcases List.mem_cons.mp hd with rfl | hd
        · exact hout
        · exact ih hd
      · split at hd
        · rcases List.mem_cons.mp hd with rfl | hd
          · exact hout
          · exact ih hd
        · split at hd
          · rcases List.mem_cons.mp hd with rfl | hd
            · exact hout
            · exact ih hd
          · exact ih hd

theorem C9_cursor_suppression_witness :
    (⟨0, 5, ⟨"{{<var k>}}", false⟩⟩ : Deco) ∈
      buildDecorationsCore [⟨0, 5, "k"⟩] 10 none emptyCacheState ⟨true⟩ ∧
    ¬((0 : Nat) ≤ 10 ∧ (10 : Nat) ≤ 5) :=
  ⟨by decide,
   C9_cursor_suppression [⟨0, 5, "k"⟩] 10 none emptyCacheState ⟨true⟩
     ⟨0, 5, ⟨"{{<var k>}}", false⟩⟩ (by decide)⟩

/-! ## VariableWriter

Embedding of src/src/modules/VariableWriter.ts.  Tree walks carry a
fuel argument (structural recursion); `updateVariable` instantiates it
with a bound that covers the path length and the node tree, which is
bounded by the original line count. -/

/-- `cloneNodes`: the writer's deep copy of a node list. -/
def cloneNodes : Nat → List YamlNode → List YamlNode
  | 0, ns => ns
  | _ + 1, [] => []
  | fuel + 1, n :: rest =>
    n.setChildren (cloneNodes fuel n.children) :: cloneNodes fuel rest

/-- `updateNodesValue(nodes, pathParts, newValue)`: walk the dotted
path through the node list; on the final segment overwrite `value` and
`type` and report `true`; on an intermediate segment match, return the
recursive result for the children immediately (the `node.children`
truthiness test is always true — the parser always materialises an
array, and an empty JS array is truthy). -/
def updateNodesValue (newValue : JValue) :
    Nat → List YamlNode → List String → List YamlNode × Bool
  | 0, nodes, _ => (nodes, false)
  | _ + 1, nodes, [] => (nodes, false)
  | _ + 1, [], _ :: _ => ([], false)
  | fuel + 1, n :: rest, p :: ps =>
    if n.key = p then
      match ps with
      | [] =>
        (n.setValueType newValue (getValueType newValue) :: rest, true)
      | _ :: _ =>
        let r := updateNodesValue newValue fuel n.children ps
        (n.setChildren r.1 :: rest, r.2)
    else
      let r := updateNodesValue newValue fuel rest (p :: ps)
      (n :: r.1, r.2)

/-- The section loop of `updateStructureValue`: try each section in
order and stop at the first whose tree contains the path. -/
def updateSections (newValue : JValue) (pathParts : List String) :
    Nat → List YamlSection → List YamlSection × Bool
  | 0, sections => (sections, false)
  | _ + 1, [] => ([], false)
  | fuel + 1, s :: rest =>
    let r := updateNodesValue newValue fuel s.nodes pathParts
    if r.2 then ({ s with nodes := r.1 } :: rest, true)
    else
      let r2 := updateSections newValue pathParts fuel rest
      ({ s with nodes := r.1 } :: r2.1, r2.2)

/-- `updateParsedData(data, pathParts, newValue)` as a value-level
result (the aliasing consequences of the shallow copy are modelled
separately on a heap for C3): walk/create intermediate containers and
set the final key.  A non-null, non-object intermediate is left
unchanged (JS property assignment on a primitive is ineffective; under
strict mode it would throw — no modelled flow reaches it). -/
def setField (data : JValue) (k : String) (v : JValue) : JValue :=
  match data with
  | .vObj fields => .vObj (mapSet fields k v)
  | other => other

def updateParsedData (newValue : JValue) : JValue → List String → JValue
  | data, [] => data
  | data, [k] => setField data k newValue
  | data, k :: k2 :: ks =>
    match data with
    | .vObj fields =>
      match fields.lookup k with
      | none =>
        setField data k (updateParsedData newValue (.vObj []) (k2 :: ks))
      | some .vNull =>
        setField data k (updateParsedData newValue (.vObj []) (k2 :: ks))
      | some (.vObj inner) =>
        setField data k (updateParsedData newValue (.vObj inner) (k2 :: ks))
      | some _ => data
    | other => other

/-- `updateStructureValue`: clone, update the first matching section
(falling back to the flat list when no section contains the path),
mirror the value into `parsedData`, and return the clone.  The TS
signature declares `ParsedYamlStructure | null`, but every control
path returns the clone — the `null` case is dead, which is what C2 is
about. -/
def updateStructureValue (fuel : Nat) (structure0 : ParsedYamlStructure)
    (variablePath : String) (newValue : JValue) : ParsedYamlStructure :=
  let pathParts := jsSplit '.' variablePath
  let cloned : ParsedYamlStructure :=
    { sections := structure0.sections.map fun s =>
        { s with nodes := cloneNodes fuel s.nodes },
      flatNodes := cloneNodes fuel structure0.flatNodes,
      originalLines := structure0.originalLines,
      parsedData := structure0.parsedData }
  let r := updateSections newValue pathParts fuel cloned.sections
  let flatNodes' :=
    if r.2 then cloned.flatNodes
    else (updateNodesValue newValue fuel cloned.flatNodes pathParts).1
  { sections := r.1, flatNodes := flatNodes',
    originalLines := cloned.originalLines,
    parsedData := updateParsedData newValue cloned.parsedData pathParts }

/-- Characters that force quoting in `formatValueForYaml` (the JS
regex class includes a backquote, written by code point here). -/
def yamlSpecialChar (c : Char) : Bool :=
  c = ':' || c = '#' || c = '@' || c = '&' || c = '*' || c = '!' || c = '|' ||
  c = '>' || c = '%' || c = '\x7b' || c = '\x7d' || c = '[' || c = ']' ||
  c = ',' || c = Char.ofNat 96

/-- JS `str.replace(/"/g, '\\"')`. -/
def escapeQuotes : List Char → List Char
  | [] => []
  | c :: r =>
    if c = '"' then '\\' :: '"' :: escapeQuotes r else c :: escapeQuotes r

mutual

/-- Model of `JSON.stringify` for the inline-object branch of
`formatValueForYaml` (no modelled flow reaches it; included for
completeness). -/
def jsonStringify : JValue → String
  | .vNull => "null"
  | .vBool b => if b then "true" else "false"
  | .vNum n => toString n
  | .vStr s => "\"" ++ (escapeQuotes s.data).asString ++ "\""
  | .vArr xs => "[" ++ jsonStringifyList xs ++ "]"
  | .vObj fields => "\x7b" ++ jsonStringifyFields fields ++ "\x7d"

def jsonStringifyList : List JValue → String
  | [] => ""
  | [x] => jsonStringify x
  | x :: y :: r => jsonStringify x ++ "," ++ jsonStringifyList (y :: r)

def jsonStringifyFields : List (String × JValue) → String
  | [] => ""
  | [(k, v)] => "\"" ++ k ++ "\":" ++ jsonStringify v
  | (k, v) :: p :: r =>
    "\"" ++ k ++ "\":" ++ jsonStringify v ++ "," ++
      jsonStringifyFields (p :: r)

end

/-- `formatValueForYaml(value, type, isStructuralParent)`. -/
def formatValueForYaml (value : JValue) (type0 : YType)
    (isStructuralParent : Bool) : String :=
  if isStructuralParent then ""
  else
    match type0 with
    | .tString =>
      let str := jsToString value
      if str.data.any yamlSpecialChar ||
          (str.data.head?.map Char.isDigit).getD false ||
          trimList str.data ≠ str.data then
        "\"" ++ (escapeQuotes str.data).asString ++ "\""
      else str
    | .tNumber => jsToString value
    | .tBoolean => jsToString value
    | .tArray =>
      match value with
      | .vArr items =>
        if items.isEmpty then "[]"
        else if items.all fun item =>
            match item with
            | .vStr _ => true
            | .vNum _ => true
            | .vBool _ => true
            | _ => false then
          "[" ++ String.intercalate ", " (items.map fun item =>
            match item with
            | .vStr s => "\"" ++ s ++ "\""
            | other => jsToString other) ++ "]"
        else "[complex array]"
      | _ => "[]"
    | .tObject =>
      match value with
      | .vObj fields =>
        if fields.length > 0 then jsonStringify (.vObj fields) else "\x7b\x7d"
      | _ => "\x7b\x7d"
    | .tNull => "null"

/-- `updateLineValue(originalLine, node)`: keep the line of a
structural parent that has children; otherwise keep everything up to
and including the first colon and any trailing `#` comment verbatim,
keep the original whitespace run before the value (or a single space
when there was none — the `|| ' '` quirk on the empty regex match),
and substitute the formatted value. -/
def updateLineValue (originalLine : String) (node : YamlNode) : String :=
  if node.isStructuralParent && node.children.length > 0 then originalLine
  else
    match indexOfChar ':' originalLine.data with
    | none => originalLine
    | some colonIndex =>
      let beforeColon := originalLine.data.take (colonIndex + 1)
      let afterColon := originalLine.data.drop (colonIndex + 1)
      let split0 :=
        match indexOfChar '#' afterColon with
        | some hashIndex => (afterColon.drop hashIndex, afterColon.take hashIndex)
        | none => ([], afterColon)
      let comment := split0.1
      let valueOnlyPart := split0.2
      let newValueFormatted :=
        formatValueForYaml node.value node.type node.isStructuralParent
      let ws := valueOnlyPart.takeWhile jsWs
      let leadingSpaces := if ws.isEmpty then [' '] else ws
      (beforeColon ++ leadingSpaces).asString ++ newValueFormatted ++
        comment.asString

/-- `updateLinesForNodes(lines, nodes)`: regenerate the line at each
node's `lineStart` (leaving it alone when regeneration is the
identity), then recurse into children. -/
def updateLinesForNodes : Nat → List String → List YamlNode → List String
  | 0, lines, _ => lines
  | _ + 1, lines, [] => lines
  | fuel + 1, lines, n :: rest =>
    let lines1 :=
      if n.lineStart < lines.length then
        let originalLine := lines.getD n.lineStart ""
        let updatedLine := updateLineValue originalLine n
        if updatedLine ≠ originalLine then lines.set n.lineStart updatedLine
        else lines
      else lines
    let lines2 :=
      if n.children.length > 0 then updateLinesForNodes fuel lines1 n.children
      else lines1
    updateLinesForNodes fuel lines2 rest

/-- `generateYamlContent(structure, originalLines)`: regenerate every
section's node lines on a copy of the original lines and rejoin with
newlines (a full-file rewrite). -/
def generateYamlContent (fuel : Nat) (structure0 : ParsedYamlStructure)
    (originalLines : List String) : String :=
  String.intercalate "\n"
    (structure0.sections.foldl
      (fun lines s => updateLinesForNodes fuel lines s.nodes) originalLines)

structure WriteResult where
  success : Bool
  error : Option String
  updatedContent : Option String
deriving DecidableEq, Repr

/-- `vault.modify`: replace the content at `path`. -/
def vaultModify (vault : List VaultFile) (path content : String) :
    List VaultFile :=
  vault.map fun f => if f.path = path then { f with content := content } else f

namespace VariableWriter

/-- `VariableWriter.updateVariable`: look up the variables file,
update the cloned structure, regenerate the content and write it back.
Returns the result, the vault after the call, and the number of
`vault.modify` writes performed.  The fuel covers the dotted path and
the node tree (bounded by the line count).  The source's
`if (!updatedStructure)` path-not-found guard is dead code:
`updateStructureValue` returns the clone on every control path. -/
def updateVariable (vault : List VaultFile) (projectInfo : ProjectInfo)
    (yamlStructure : ParsedYamlStructure) (variablePath : String)
    (newValue : JValue) : WriteResult × List VaultFile × Nat :=
  match vault.find? (fun f => f.path = projectInfo.variablesPath) with
  | none =>
    ({ success := false, error := some "Variables file not found",
       updatedContent := none }, vault, 0)
  | some _ =>
    let fuel := yamlStructure.originalLines.length +
      (jsSplit '.' variablePath).length + 1
    let updatedStructure :=
      updateStructureValue fuel yamlStructure variablePath newValue
    let newContent :=
      generateYamlContent fuel updatedStructure yamlStructure.originalLines
    ({ success := true, error := none, updatedContent := some newContent },
     vaultModify vault projectInfo.variablesPath newContent, 1)

end VariableWriter

/-- C1 (code-bug evidence): the writer regenerates every leaf line
from the decoded node value, so an untouched leaf whose original text
is not in canonical form is rewritten.  Parsing `a: "x"` / `b: 1` and
updating only `b` to `2` produces `a: x` / `b: 2`: line 0, which the
claim requires to stay byte-identical (`a: "x"`), loses its quotes. -/
theorem C1_untouched_line_rewritten :
    (parse jsYamlFailsafeDoc jsYamlScalarModel
        "a: \"x\"\nb: 1").originalLines.getD 0 "" = "a: \"x\"" ∧
    (VariableWriter.updateVariable
        [⟨"p/_variables.yml", "a: \"x\"\nb: 1", 0⟩] ⟨"p", "p/_variables.yml"⟩
        (parse jsYamlFailsafeDoc jsYamlScalarModel "a: \"x\"\nb: 1") "b"
        (.vNum 2)).1 =
      { success := true, error := none,
        updatedContent := some "a: x\nb: 2" } ∧
    ("a: x\nb: 2" : String) ≠ "a: \"x\"\nb: 2" :=
  ⟨rfl, rfl, by decide⟩

/-- C2 (code-bug evidence): `updateStructureValue` returns the clone
on every path, so the caller's `if (!updatedStructure)` path-not-found
guard is dead.  Updating the non-existent path `zzz` in the parse of
`a: 1` reports success and performs a `vault.modify` write (whose
content silently drops the new value), where the claim — and the dead
error branch — require a path-not-found failure with no write. -/
theorem C2_missing_path_still_succeeds_and_writes :
    (VariableWriter.updateVariable [⟨"p/_variables.yml", "a: 1", 0⟩]
        ⟨"p", "p/_variables.yml"⟩
        (parse jsYamlFailsafeDoc jsYamlScalarModel "a: 1") "zzz"
        (.vStr "q")).1 =
      { success := true, error := none, updatedContent := some "a: 1" } ∧
    (VariableWriter.updateVariable [⟨"p/_variables.yml", "a: 1", 0⟩]
        ⟨"p", "p/_variables.yml"⟩
        (parse jsYamlFailsafeDoc jsYamlScalarModel "a: 1") "zzz"
        (.vStr "q")).2.2 = 1 :=
  ⟨rfl, rfl⟩

/-! ## C3: aliasing of the shallow `parsedData` copy

`updateStructureValue` copies `parsedData` with a spread
(`{ ...structure.parsedData }`): the top-level mapping is fresh but
every nested object is shared with the caller.  To observe the
mutation the value model is not enough, so this section gives a small
heap: addresses map to JS objects (field lists), object-valued fields
hold references, scalars are stored inline. -/

inductive HVal where
  | prim (v : JValue)
  | ref (a : Nat)

abbrev Heap := List (Nat × List (String × HVal))

def heapObj (h : Heap) (a : Nat) : List (String × HVal) :=
  (h.lookup a).getD []

/-- Set one field of the object at address `a` in place. -/
def heapSetField (h : Heap) (a : Nat) (k : String) (v : HVal) : Heap :=
  h.map fun p => if p.1 = a then (p.1, mapSet p.2 k v) else p

/-- `{ ...structure.parsedData }`: allocate a fresh object carrying
the same field list — nested references are shared, not copied. -/
def heapShallowCopy (h : Heap) (nextAddr a : Nat) : Heap × Nat × Nat :=
  (h ++ [(nextAddr, heapObj h a)], nextAddr, nextAddr + 1)

/-- `updateParsedData` on the heap: walk the dot segments from the
(copied) root, creating `{}` where a segment is missing or `null`,
and assign the final key on whatever object the walk reaches.  A
non-null primitive intermediate stops the walk (JS property
assignment on a primitive is ineffective; no modelled flow reaches
it). -/
def updateParsedDataH (newValue : HVal) :
    Heap → Nat → Nat → List String → Heap × Nat
  | h, nextAddr, _, [] => (h, nextAddr)
  | h, nextAddr, current, [k] => (heapSetField h current k newValue, nextAddr)
  | h, nextAddr, current, k :: k2 :: ks =>
    match (heapObj h current).lookup k with
    | some (.ref a) => updateParsedDataH newValue h nextAddr a (k2 :: ks)
    | some (.prim .vNull) =>
      let h1 := heapSetField (h ++ [(nextAddr, [])]) current k (.ref nextAddr)
      updateParsedDataH newValue h1 (nextAddr + 1) nextAddr (k2 :: ks)
    | none =>
      let h1 := heapSetField (h ++ [(nextAddr, [])]) current k (.ref nextAddr)
      updateParsedDataH newValue h1 (nextAddr + 1) nextAddr (k2 :: ks)
    | some (.prim _) => (h, nextAddr)

/-- The `parsedData` part of `updateStructureValue` on the heap: the
spread copy followed by `updateParsedData` on the copy.  Returns the
heap, the clone's root address, and the allocator state. -/
def updateStructureValueParsedDataH (h : Heap) (nextAddr root : Nat)
    (variablePath : String) (newValue : HVal) : Heap × Nat × Nat :=
  let c := heapShallowCopy h nextAddr root
  let r := updateParsedDataH newValue c.1 c.2.2 c.2.1
    (jsSplit '.' variablePath)
  (r.1, c.2.1, r.2)

/-- Read a dotted path starting from an address. -/
def heapReadPath (h : Heap) : Nat → List String → Option HVal
  | a, [] => some (.ref a)
  | a, k :: ks =>
    match (heapObj h a).lookup k with
    | some (.ref a') => if ks.isEmpty then some (.ref a') else heapReadPath h a' ks
    | some (.prim p) => if ks.isEmpty then some (.prim p) else none
    | none => none

/-- C3 (code-bug evidence): with the caller's `parsedData` being
`{a: {b: "1"}}` (root at address 0, the nested object at address 1),
updating path `a.b` to `"2"` through the writer's clone mutates the
shared nested object: reading `a.b` from the caller's original root
afterwards yields `"2"`, not the original `"1"` — the deep-copy claim
fails for multi-segment paths. -/
theorem C3_shallow_copy_mutates_caller :
    heapReadPath [(0, [("a", .ref 1)]), (1, [("b", .prim (.vStr "1"))])]
      0 ["a", "b"] = some (.prim (.vStr "1")) ∧
    heapReadPath
      (updateStructureValueParsedDataH
        [(0, [("a", .ref 1)]), (1, [("b", .prim (.vStr "1"))])]
        2 0 "a.b" (.prim (.vStr "2"))).1
      0 ["a", "b"] = some (.prim (.vStr "2")) :=
  ⟨rfl, rfl⟩
